import Mathlib

/-!
Shallow embedding of the `servers/memory` knowledge-graph core of the
mcp-go-sdk repository, together with proofs checking the natural-language
specification against it.

Modelling conventions:
* Go `interface{}` values holding JSON-compatible data are the inductive
  `JVal`; Go `float64` numbers are modelled as rationals.
* Go `map[string]T` is an association list with unique keys (`alookup`,
  `aset`, `aerase` mirror indexing, assignment and `delete`).  Where Go
  iterates a map, the model iterates the association list; the list order
  stands for the iteration order the Go runtime happened to choose.
* Persistence (`saveGraph`) is I/O; it is modelled by a boolean oracle
  `saveOk` saying whether the write succeeds, and each operation records
  whether it invoked the save at all (`saveCalled`).
* `uuid.New()` is modelled by an oracle `gen : Nat -> String`.
-/

namespace MemGraph

/-- JSON-compatible value (`interface{}` after `encoding/json` unmarshalling):
null, booleans, numbers (Go `float64`, modelled as `Rat`), strings, arrays and
string-keyed objects. -/
inductive JVal where
  | null
  | bool (b : Bool)
  | num (q : Rat)
  | str (s : String)
  | arr (xs : List JVal)
  | obj (fs : List (String × JVal))
deriving Repr

/-- A JSON object body: the Go `map[string]interface{}`. -/
abbrev JObj := List (String × JVal)

mutual

/-- Structural equality of `JVal` trees, modelling `reflect.DeepEqual` on
JSON-decoded values. -/
def JVal.beq : JVal → JVal → Bool
  | .null, .null => true
  | .bool a, .bool b => a == b
  | .num a, .num b => a == b
  | .str a, .str b => a == b
  | .arr a, .arr b => JVal.beqArr a b
  | .obj a, .obj b => JVal.beqObj a b
  | _, _ => false

/-- Elementwise equality of JSON arrays. -/
def JVal.beqArr : List JVal → List JVal → Bool
  | [], [] => true
  | x :: xs, y :: ys => x.beq y && JVal.beqArr xs ys
  | _, _ => false

/-- Entrywise equality of JSON object bodies. -/
def JVal.beqObj : List (String × JVal) → List (String × JVal) → Bool
  | [], [] => true
  | (k, x) :: xs, (l, y) :: ys => k == l && x.beq y && JVal.beqObj xs ys
  | _, _ => false

end

/-- Split a character list around every dot, modelling
`strings.Split(path, ".")`: the empty string yields one empty part, and
every dot starts a new part. -/
def splitDots : List Char → List String
  | [] => [""]
  | c :: rest =>
    let r := splitDots rest
    if c = '.' then "" :: r
    else
      match r with
      | [] => [String.mk [c]]
      | s :: ss => (String.mk [c] ++ s) :: ss

/-- Dot-splitting of a string (`strings.Split(path, ".")`). -/
def splitPath (path : String) : List String := splitDots path.toList

/-- Does the field start with the literal prefix `metadata.`
(`strings.HasPrefix`)? -/
def hasMetaDot (field : String) : Bool :=
  List.isPrefixOf "metadata.".toList field.toList

/-- The field with its first nine characters removed — what
`strings.TrimPrefix(field, "metadata.")` leaves once the prefix test
succeeded. -/
def metaKey (field : String) : String := String.mk (field.toList.drop 9)

/-- ASCII lower-casing, modelling `strings.ToLower` on the ASCII order
words the query input carries. -/
def lowerAscii (s : String) : String :=
  String.mk (s.toList.map (fun c =>
    if 'A' ≤ c ∧ c ≤ 'Z' then Char.ofNat (c.toNat + 32) else c))

/-- Look up a key in an association list (Go map read `m[k]`). -/
def alookup {β : Type} (k : String) : List (String × β) → Option β
  | [] => none
  | (k₁, v) :: rest => if k₁ = k then some v else alookup k rest

/-- Set a key in an association list (Go map write `m[k] = v`). -/
def aset {β : Type} (k : String) (v : β) : List (String × β) → List (String × β)
  | [] => [(k, v)]
  | (k₁, v₁) :: rest => if k₁ = k then (k, v) :: rest else (k₁, v₁) :: aset k v rest

/-- Remove a key from an association list (Go `delete(m, k)`).  Every
binding of the key is removed; on lists with unique keys — the invariant Go
maps enforce — this is the same as removing the one binding. -/
def aerase {β : Type} (k : String) : List (String × β) → List (String × β)
  | [] => []
  | (k₁, v₁) :: rest => if k₁ = k then aerase k rest else (k₁, v₁) :: aerase k rest

/-- `types.Entity`: a node of the knowledge graph.  `metadata` is `none` when
the Go map is nil and `some` of an object body otherwise. -/
structure Entity where
  id : String
  type : String
  name : String
  description : String
  metadata : Option JObj
deriving Repr

/-- `types.Relation`: a directed edge.  `weight` models the Go `float64`. -/
structure Relation where
  id : String
  type : String
  source : String
  target : String
  description : String
  metadata : Option JObj
  weight : Rat
  bidirectional : Bool
deriving Repr

/-- `types.Observation`: a time-stamped fact about an entity; the timestamp
is modelled as an integer instant. -/
structure Observation where
  id : String
  entityID : String
  type : String
  content : String
  description : String
  metadata : Option JObj
  timestamp : Int
  tags : List String
deriving Repr

/-- `types.KnowledgeGraph`: the three id-keyed collections of the store. -/
structure Graph where
  entities : List (String × Entity)
  relations : List (String × Relation)
  observations : List (String × Observation)
deriving Repr

/-- Well-formedness of the in-memory graph as the Go code maintains it: each
collection's keys are distinct (they model Go maps) and every record is keyed
by its own `id` field. -/
def Graph.WF (g : Graph) : Prop :=
  (g.entities.map Prod.fst).Nodup ∧ (∀ p ∈ g.entities, p.2.id = p.1) ∧
  (g.relations.map Prod.fst).Nodup ∧ (∀ p ∈ g.relations, p.2.id = p.1) ∧
  (g.observations.map Prod.fst).Nodup ∧ (∀ p ∈ g.observations, p.2.id = p.1)

instance (g : Graph) : Decidable g.WF := by
  unfold Graph.WF; infer_instance

/-- Error taxonomy for the modelled operations.  The Go code returns
`fmt.Errorf` values; the constructors record which failure occurred (the
spec's kind taxonomy). -/
inductive GErr where
  | notFound (id : String)
  | conflict (id : String)
  | badArgument (msg : String)
  | saveFailed
  | unsupported (what : String)
deriving Repr, DecidableEq

/-- Result of a store mutation: the in-memory graph afterwards, the returned
value or error, and whether `saveGraph` was invoked at all. -/
structure OpResult (α : Type) where
  graph : Graph
  out : Except GErr α
  saveCalled : Bool

/-! ## Metadata mutator (`metadata.go`) -/

/-- Core of `setNestedValue`, recursing over the dot-separated path parts.
It mirrors the Go loop: at the last part it performs the operation
(`delete` / `replace` / `merge`, anything else is an unsupported-operation
error); at an intermediate part it descends, auto-creating an absent
intermediate map for `merge`/`replace`, treating an absent or non-map
intermediate as a no-op for `delete`, and failing on a non-map intermediate
otherwise.  The Go code mutates the nested maps in place; this function
returns the updated object body instead. -/
def setNestedParts (cur : JObj) (parts : List String) (value : JVal)
    (operation : String) : Except GErr JObj :=
  match parts with
  | [] => .ok cur
  | [part] =>
    if operation = "delete" then .ok (aerase part cur)
    else if operation = "replace" then .ok (aset part value cur)
    else if operation = "merge" then
      match alookup part cur with
      | none => .ok (aset part value cur)
      | some existing =>
        match existing, value with
        | .obj existingMap, .obj valueMap =>
          .ok (aset part (.obj (valueMap.foldl (fun m kv => aset kv.1 kv.2 m) existingMap)) cur)
        | _, _ => .ok (aset part value cur)
    else .error (.unsupported operation)
  | part :: rest =>
    match alookup part cur with
    | none =>
      if operation = "delete" then .ok cur
      else
        match setNestedParts [] rest value operation with
        | .error e => .error e
        | .ok inner => .ok (aset part (.obj inner) cur)
    | some next =>
      match next with
      | .obj nextMap =>
        match setNestedParts nextMap rest value operation with
        | .error e => .error e
        | .ok inner => .ok (aset part (.obj inner) cur)
      | _ =>
        if operation = "delete" then .ok cur
        else .error (.badArgument part)

/-- `setNestedValue`: split the dot-path and apply `setNestedParts`
(`strings.Split(path, ".")` is `splitPath`).  One deliberate
simplification: when the operation string is not one of
`merge`/`replace`/`delete`, the Go version may leave an auto-created empty
intermediate map behind before reporting the unsupported operation; the
functional model drops that partial write.  For the three supported
operations an error implies the Go code performed no mutation, so the model
agrees with the source exactly there. -/
def setNestedValue (data : JObj) (path : String) (value : JVal)
    (operation : String) : Except GErr JObj :=
  setNestedParts data (splitPath path) value operation

/-! ## Per-entity and bulk metadata update (`metadata.go`) -/

/-- Apply the update map (an association list standing for the Go map, in the
iteration order the runtime chose) to a working metadata object, stopping at
the first error exactly as the Go loop does.  Returns the partially updated
object together with the error, because the Go code mutates the shared map in
place: when the entity's metadata map was non-nil, those partial mutations
are visible through the stored entity even though the local variable is later
rebound. -/
def applyUpdatesToMeta (meta : JObj) :
    List (String × JVal) → String → JObj × Option GErr
  | [], _ => (meta, none)
  | (path, value) :: rest, operation =>
    match setNestedValue meta path value operation with
    | .error e => (meta, some e)
    | .ok meta₁ => applyUpdatesToMeta meta₁ rest operation

/-- `UpdateMetadataForEntity`: look the entity up, treat nil metadata (early
return for `delete`, fresh map otherwise), deep-copy the pre-image, apply the
updates, roll back on error, store, then save and roll back on save failure.

Aliasing is modelled explicitly: when the stored metadata map was non-nil
(`aliased`), `setNestedValue` mutates that very map, so on an update error
the stored entity keeps the partially updated object — the Go rollback
`entity.Metadata = originalMetadata` only rebinds the local struct copy and
is never written back to the map of entities.  When the metadata map was nil
the working map is fresh and the stored entity is untouched until the
write-back on success.  On save failure the rollback does write the restored
entity back; the restored metadata is the deep copy, which for an initially
nil map is an empty (non-nil) map. -/
def updateMetadataForEntity (g : Graph) (entityID : String)
    (updates : List (String × JVal)) (operation : String) (saveOk : Bool) :
    OpResult Entity :=
  match alookup entityID g.entities with
  | none => ⟨g, .error (.notFound entityID), false⟩
  | some entity =>
    if entity.metadata.isNone ∧ operation = "delete" then
      ⟨g, .ok entity, false⟩
    else
      let aliased := entity.metadata.isSome
      let work := entity.metadata.getD []
      let originalMetadata := work
      match applyUpdatesToMeta work updates operation with
      | (halted, some e) =>
        -- rollback bug: only the local copy is rebound; when aliased the
        -- stored entity's metadata object keeps the partial mutations
        if aliased then
          let ents := aset entityID ({ entity with metadata := some halted }) g.entities
          ⟨{ g with entities := ents }, .error e, false⟩
        else
          ⟨g, .error e, false⟩
      | (full, none) =>
        let entity₁ := { entity with metadata := some full }
        let g₁ := { g with entities := aset entityID entity₁ g.entities }
        if saveOk then ⟨g₁, .ok entity₁, true⟩
        else
          let entity₂ := { entity with metadata := some originalMetadata }
          ⟨{ g₁ with entities := aset entityID entity₂ g₁.entities },
            .error .saveFailed, true⟩

/-- `types.EntityFilterCriteria` for the bulk update. -/
structure EntityFilterCriteria where
  type : String
  nameContains : String
  descriptionContains : String

/-- Substring test modelling `strings.Contains` (byte order and code-point
order agree under UTF-8). -/
def strContains (s pat : String) : Bool :=
  decide (List.IsInfix pat.toList s.toList)

/-- Pass 1 of `BulkUpdateMetadata`: does an entity match the coarse filter
criteria? -/
def matchesCriteria (filter : EntityFilterCriteria) (entity : Entity) : Bool :=
  (filter.type = "" || entity.type = filter.type) &&
  (filter.nameContains = "" || strContains entity.name filter.nameContains) &&
  (filter.descriptionContains = "" || strContains entity.description filter.descriptionContains)

/-- Pass 2 of `BulkUpdateMetadata`: update each matched entity in turn,
writing each back only after all of its paths succeeded, and stop at the
first error, returning the entity table as it stands at that moment (the
erroring entity's stored struct is unchanged but, when its metadata map was
non-nil, that shared map holds the partial mutations). -/
def bulkApplyPass (updates : List (String × JVal)) (operation : String) :
    List Entity → List (String × Entity) → List Entity →
    (List (String × Entity) × List Entity × Option GErr)
  | [], ents, acc => (ents, acc, none)
  | entity :: more, ents, acc =>
    if entity.metadata.isNone ∧ operation = "delete" then
      bulkApplyPass updates operation more ents (acc ++ [entity])
    else
      let aliased := entity.metadata.isSome
      let work := entity.metadata.getD []
      match applyUpdatesToMeta work updates operation with
      | (halted, some e) =>
        if aliased then
          (aset entity.id ({ entity with metadata := some halted }) ents, acc, some e)
        else (ents, acc, some e)
      | (full, none) =>
        let entity₁ := { entity with metadata := some full }
        bulkApplyPass updates operation more (aset entity.id entity₁ ents) (acc ++ [entity₁])

/-- Rollback loop shared by the error and save-failure paths of
`BulkUpdateMetadata`: restore every captured pre-image metadata into the
current entity table. -/
def bulkRestore (originals : List (String × Option JObj))
    (ents : List (String × Entity)) : List (String × Entity) :=
  originals.foldl
    (fun tbl kv =>
      match alookup kv.1 tbl with
      | some entity => aset kv.1 ({ entity with metadata := kv.2 }) tbl
      | none => tbl)
    ents

/-- `BulkUpdateMetadata`: pass 1 collects the matched entities and deep
copies their metadata pre-images (`deepCopyMap` maps a nil map to nil);
pass 2 applies the updates; on any error or on save failure every captured
pre-image is restored. -/
def bulkUpdateMetadata (g : Graph) (filter : EntityFilterCriteria)
    (updates : List (String × JVal)) (operation : String) (saveOk : Bool) :
    OpResult (List Entity) :=
  let matched := (g.entities.filter (fun p => matchesCriteria filter p.2)).map Prod.snd
  let originals := matched.map (fun e => (e.id, e.metadata))
  if matched.isEmpty then ⟨g, .ok [], false⟩
  else
    match bulkApplyPass updates operation matched g.entities [] with
    | (ents₁, _, some e) =>
      ⟨{ g with entities := bulkRestore originals ents₁ }, .error e, false⟩
    | (ents₁, updated, none) =>
      if saveOk then ⟨{ g with entities := ents₁ }, .ok updated, true⟩
      else
        ⟨{ g with entities := bulkRestore originals ents₁ }, .error .saveFailed, true⟩

/-! ## Entity, relation and observation CRUD (`part_004`, `relation_ops.go`, `open.go`) -/

/-- Loop of `CreateEntities`: fill in a generated id when the given one is
empty (`gen` is the uuid oracle, `ctr` counts the draws), fail with a
conflict on a duplicate id, and insert as we go.  Returns the table as it
stands when the loop stops — on error the earlier insertions remain. -/
def createEntitiesLoop (gen : Nat → String) :
    List Entity → List (String × Entity) → List Entity → Nat →
    (List (String × Entity) × List Entity × Nat × Option GErr)
  | [], ents, acc, ctr => (ents, acc, ctr, none)
  | entity :: rest, ents, acc, ctr =>
    let entity₁ := if entity.id = "" then { entity with id := gen ctr } else entity
    let ctr₁ := if entity.id = "" then ctr + 1 else ctr
    match alookup entity₁.id ents with
    | some _ => (ents, acc, ctr₁, some (.conflict entity₁.id))
    | none => createEntitiesLoop gen rest (aset entity₁.id entity₁ ents) (acc ++ [entity₁]) ctr₁

/-- `CreateEntities`: run the insertion loop under the write lock; the save
is reached only when every element validated, and there is no rollback of
the in-memory insertions on either a validation or a save error. -/
def createEntities (g : Graph) (entities : List Entity) (gen : Nat → String)
    (saveOk : Bool) : OpResult (List Entity) :=
  match createEntitiesLoop gen entities g.entities [] 0 with
  | (ents₁, _, _, some e) => ⟨{ g with entities := ents₁ }, .error e, false⟩
  | (ents₁, created, _, none) =>
    if saveOk then ⟨{ g with entities := ents₁ }, .ok created, true⟩
    else ⟨{ g with entities := ents₁ }, .error .saveFailed, true⟩

/-- Loop of `CreateRelations`: duplicate relation id is a conflict; a source
or target naming no existing entity is a not-found error; insertions happen
as the loop goes.  `ents` is the entity table the endpoint checks consult. -/
def createRelationsLoop (gen : Nat → String) (ents : List (String × Entity)) :
    List Relation → List (String × Relation) → List Relation → Nat →
    (List (String × Relation) × List Relation × Nat × Option GErr)
  | [], rels, acc, ctr => (rels, acc, ctr, none)
  | relation :: rest, rels, acc, ctr =>
    let relation₁ := if relation.id = "" then { relation with id := gen ctr } else relation
    let ctr₁ := if relation.id = "" then ctr + 1 else ctr
    match alookup relation₁.id rels with
    | some _ => (rels, acc, ctr₁, some (.conflict relation₁.id))
    | none =>
      if (alookup relation₁.source ents).isNone then
        (rels, acc, ctr₁, some (.notFound relation₁.source))
      else if (alookup relation₁.target ents).isNone then
        (rels, acc, ctr₁, some (.notFound relation₁.target))
      else
        createRelationsLoop gen ents rest (aset relation₁.id relation₁ rels)
          (acc ++ [relation₁]) ctr₁

/-- `CreateRelations`: like `createEntities`, with endpoint validation. -/
def createRelations (g : Graph) (relations : List Relation) (gen : Nat → String)
    (saveOk : Bool) : OpResult (List Relation) :=
  match createRelationsLoop gen g.entities relations g.relations [] 0 with
  | (rels₁, _, _, some e) => ⟨{ g with relations := rels₁ }, .error e, false⟩
  | (rels₁, created, _, none) =>
    if saveOk then ⟨{ g with relations := rels₁ }, .ok created, true⟩
    else ⟨{ g with relations := rels₁ }, .error .saveFailed, true⟩

/-- Pass 1 of `UpdateEntities`: an empty id is a bad argument, an unknown id
is a not-found error; the first offending patch aborts. -/
def validateUpdates (ents : List (String × Entity)) : List Entity → Option GErr
  | [] => none
  | u :: rest =>
    if u.id = "" then some (.badArgument "missing id")
    else if (alookup u.id ents).isNone then some (.notFound u.id)
    else validateUpdates ents rest

/-- Shallow merge of a patch metadata map into the stored one, in the
iteration order of the patch map: patch keys overwrite, others persist. -/
def mergeShallow (stored patch : JObj) : JObj :=
  patch.foldl (fun m kv => aset kv.1 kv.2 m) stored

/-- The patch applied to one stored entity in `UpdateEntities`: `type`,
`name` and `description` are replaced only when the patch value is
non-empty; a present patch metadata map is shallow-merged (creating the
stored map when it was nil); `id` is untouched. -/
def applyEntityPatch (existing u : Entity) : Entity :=
  { existing with
    type := if u.type = "" then existing.type else u.type
    name := if u.name = "" then existing.name else u.name
    description := if u.description = "" then existing.description else u.description
    metadata :=
      match u.metadata with
      | none => existing.metadata
      | some pm => some (mergeShallow (existing.metadata.getD []) pm) }

/-- The Go zero value of `types.Entity` (what a map read of a missing key
yields; pass 1 guarantees it is never used). -/
def zeroEntity : Entity := ⟨"", "", "", "", none⟩

/-- Pass 2 of `UpdateEntities`: apply the patches in order, writing each
patched entity back under the patch id and collecting the results. -/
def applyUpdates :
    List Entity → List (String × Entity) → List Entity →
    (List (String × Entity) × List Entity)
  | [], ents, acc => (ents, acc)
  | u :: rest, ents, acc =>
    let patched := applyEntityPatch ((alookup u.id ents).getD zeroEntity) u
    applyUpdates rest (aset u.id patched ents) (acc ++ [patched])

/-- `UpdateEntities`: validate everything first, then apply, then save.  The
save-failure rollback restores the captured pre-image structs; because the Go
pre-image shares the stored metadata map, a restored entity keeps the merged
metadata unless its metadata was nil at capture time — the model reproduces
that aliasing. -/
def updateEntities (g : Graph) (updates : List Entity) (saveOk : Bool) :
    OpResult (List Entity) :=
  match validateUpdates g.entities updates with
  | some e => ⟨g, .error e, false⟩
  | none =>
    match applyUpdates updates g.entities [] with
    | (ents₁, results) =>
      if saveOk then ⟨{ g with entities := ents₁ }, .ok results, true⟩
      else
        let restore := fun (tbl : List (String × Entity)) (u : Entity) =>
          match alookup u.id g.entities, alookup u.id ents₁ with
          | some original, some final₁ =>
            let restored :=
              if original.metadata.isNone then original
              else { original with metadata := final₁.metadata }
            aset u.id restored tbl
          | _, _ => tbl
        ⟨{ g with entities := updates.foldl restore ents₁ }, .error .saveFailed, true⟩

/-- Deletion loop shared in shape by `DeleteEntities` and
`DeleteObservations`: ids are checked and removed one by one; the first
missing id stops the loop, leaving the earlier removals in place. -/
def deleteByIdLoop {β : Type} : List String → List (String × β) →
    (List (String × β) × Option GErr)
  | [], tbl => (tbl, none)
  | id :: rest, tbl =>
    match alookup id tbl with
    | none => (tbl, some (.notFound id))
    | some _ => deleteByIdLoop rest (aerase id tbl)

/-- `DeleteEntities`: on a missing id the error returns before `saveGraph`
is ever invoked, with the earlier deletions still applied in memory. -/
def deleteEntities (g : Graph) (ids : List String) (saveOk : Bool) : OpResult Unit :=
  match deleteByIdLoop ids g.entities with
  | (ents₁, some e) => ⟨{ g with entities := ents₁ }, .error e, false⟩
  | (ents₁, none) =>
    if saveOk then ⟨{ g with entities := ents₁ }, .ok (), true⟩
    else ⟨{ g with entities := ents₁ }, .error .saveFailed, true⟩

/-- `DeleteObservations`: same discipline as `deleteEntities`, over the
observation table. -/
def deleteObservations (g : Graph) (ids : List String) (saveOk : Bool) : OpResult Unit :=
  match deleteByIdLoop ids g.observations with
  | (obs₁, some e) => ⟨{ g with observations := obs₁ }, .error e, false⟩
  | (obs₁, none) =>
    if saveOk then ⟨{ g with observations := obs₁ }, .ok (), true⟩
    else ⟨{ g with observations := obs₁ }, .error .saveFailed, true⟩

/-! ## Query engine (`query.go`) -/

/-- A query candidate: an entity or a relation (`interface{}` in the Go
code). -/
inductive QItem where
  | ent (e : Entity)
  | rel (r : Relation)
deriving Repr

/-- `types.Filter`: a single filtering condition. -/
structure Filter where
  field : String
  operator : String
  value : JVal
deriving Repr

/-- Is a value the JSON null (a Go nil interface)? -/
def JVal.isNull : JVal → Bool
  | .null => true
  | _ => false

/-- Is a value a JSON object (a Go `map[string]interface{}`)? -/
def JVal.isObj : JVal → Bool
  | .obj _ => true
  | _ => false

/-- Do two values carry the same dynamic Go type?  All numbers unmarshal to
`float64`, so one constructor per Go type. -/
def JVal.sameKind : JVal → JVal → Bool
  | .null, .null => true
  | .bool _, .bool _ => true
  | .num _, .num _ => true
  | .str _, .str _ => true
  | .arr _, .arr _ => true
  | .obj _, .obj _ => true
  | _, _ => false

mutual

/-- Textual rendering standing for `fmt.Sprintf` with the `v` verb, used by
the comparison fallbacks.  No claim depends on the exact text, only on it
being a fixed function of the value. -/
def JVal.render : JVal → String
  | .null => "<nil>"
  | .bool b => toString b
  | .num q => toString q.num ++ "/" ++ toString q.den
  | .str s => s
  | .arr xs => "[" ++ JVal.renderArr xs ++ "]"
  | .obj fs => "map[" ++ JVal.renderObj fs ++ "]"

/-- Render the elements of an array, space separated. -/
def JVal.renderArr : List JVal → String
  | [] => ""
  | [x] => x.render
  | x :: xs => x.render ++ " " ++ JVal.renderArr xs

/-- Render the entries of an object, space separated. -/
def JVal.renderObj : List (String × JVal) → String
  | [] => ""
  | [(k, v)] => k ++ ":" ++ v.render
  | (k, v) :: xs => k ++ ":" ++ v.render ++ " " ++ JVal.renderObj xs

end

/-- `compareValues`: deep equality when the dynamic types agree (numbers all
share `float64`), textual-rendering equality otherwise.  The Go version
panics via `reflect` when either side is a nil interface; `matchesFilter`
only reaches it with a non-nil extracted value, and the model stays total
by treating null as an ordinary constructor. -/
def compareValues (actual expected : JVal) : Bool :=
  if actual.sameKind expected then actual.beq expected
  else actual.render == expected.render

/-- `performComparison`: numeric comparison when both sides are numbers,
lexicographic string comparison when both are strings (byte order equals
code-point order under UTF-8), and otherwise only equality via
`compareValues` — ordering on mixed types is the not-implemented error. -/
def performComparison (actual expected : JVal) (operator : String) :
    Except GErr Bool :=
  match actual, expected with
  | .num a, .num b =>
    if operator = "eq" then .ok (a == b)
    else if operator = "neq" then .ok (!(a == b))
    else if operator = "gt" then .ok (decide (b < a))
    else if operator = "gte" then .ok (decide (b ≤ a))
    else if operator = "lt" then .ok (decide (a < b))
    else if operator = "lte" then .ok (decide (a ≤ b))
    else .error (.unsupported operator)
  | .str a, .str b =>
    if operator = "eq" then .ok (a == b)
    else if operator = "neq" then .ok (!(a == b))
    else if operator = "gt" then .ok (decide (b < a))
    else if operator = "gte" then .ok (decide (b ≤ a))
    else if operator = "lt" then .ok (decide (a < b))
    else if operator = "lte" then .ok (decide (a ≤ b))
    else .error (.unsupported operator)
  | a, b =>
    if operator = "eq" then .ok (compareValues a b)
    else if operator = "neq" then .ok (!compareValues a b)
    else .error (.unsupported operator)

/-- `extractValue`: resolve a field name against an entity or relation.  A
`metadata.`-prefixed field is looked up as a single top-level metadata key
(the remainder of the string after the prefix, with no nested traversal);
a missing key or an unknown field is an error. -/
def extractValue (item : QItem) (field : String) : Except GErr JVal :=
  match item with
  | .ent v =>
    if field = "id" then .ok (.str v.id)
    else if field = "type" then .ok (.str v.type)
    else if field = "name" then .ok (.str v.name)
    else if field = "description" then .ok (.str v.description)
    else if hasMetaDot field then
      let key := metaKey field
      match v.metadata with
      | some m =>
        match alookup key m with
        | some val => .ok val
        | none => .error (.notFound key)
      | none => .error (.notFound key)
    else .error (.badArgument field)
  | .rel v =>
    if field = "id" then .ok (.str v.id)
    else if field = "type" then .ok (.str v.type)
    else if field = "source" then .ok (.str v.source)
    else if field = "target" then .ok (.str v.target)
    else if hasMetaDot field then
      let key := metaKey field
      match v.metadata with
      | some m =>
        match alookup key m with
        | some val => .ok val
        | none => .error (.notFound key)
      | none => .error (.notFound key)
    else .error (.badArgument field)

/-- `matchesFilter`: an extraction error on a `metadata.`-prefixed field is
a plain non-match for every operator (the `neq` case in the source
deliberates and then also returns false); on any other field it aborts the
query.  A successfully extracted null gets the dedicated nil-handling
block; a null filter value against a non-null extracted value matches only
`neq`; the general case dispatches per operator. -/
def matchesFilter (item : QItem) (filter : Filter) : Except GErr Bool :=
  match extractValue item filter.field with
  | .error e =>
    if hasMetaDot filter.field then
      if filter.operator = "neq" then .ok false
      else .ok false
    else .error e
  | .ok value =>
    if value.isNull then
      if filter.operator = "eq" then .ok filter.value.isNull
      else if filter.operator = "neq" then .ok (!filter.value.isNull)
      else if filter.operator = "in" then
        match filter.value with
        | .arr vs => .ok (vs.any (fun v => v.isNull))
        | _ => .error (.badArgument "in")
      else if filter.operator = "nin" then
        match filter.value with
        | .arr vs => .ok (!vs.any (fun v => v.isNull))
        | _ => .error (.badArgument "nin")
      else .ok false
    else if filter.value.isNull then
      if filter.operator = "eq" then .ok false
      else if filter.operator = "neq" then .ok true
      else .error (.unsupported filter.operator)
    else if filter.operator = "eq" ∨ filter.operator = "neq" ∨
        filter.operator = "gt" ∨ filter.operator = "gte" ∨
        filter.operator = "lt" ∨ filter.operator = "lte" then
      performComparison value filter.value filter.operator
    else if filter.operator = "in" then
      match filter.value with
      | .arr vs =>
        if vs.isEmpty then .ok false
        else .ok (vs.any (fun v => compareValues value v))
      | _ => .error (.badArgument "in")
    else if filter.operator = "nin" then
      match filter.value with
      | .arr vs =>
        if vs.isEmpty then .ok true
        else .ok (!vs.any (fun v => compareValues value v))
      | _ => .error (.badArgument "nin")
    else if filter.operator = "contains" then
      match value, filter.value with
      | .str a, .str b => .ok (strContains a b)
      | _, _ => .error (.badArgument "contains")
    else .error (.unsupported filter.operator)

/-- Conjunction of all filters over one item, stopping at the first
non-match or error exactly like the inner loop of `applyFilters`. -/
def matchesAllFilters (item : QItem) : List Filter → Except GErr Bool
  | [] => .ok true
  | f :: rest =>
    match matchesFilter item f with
    | .error e => .error e
    | .ok false => .ok false
    | .ok true => matchesAllFilters item rest

/-- Item loop of `applyFilters`, keeping the items whose every filter
matches and failing fast on an evaluation error. -/
def applyFiltersLoop (filters : List Filter) : List QItem → Except GErr (List QItem)
  | [] => .ok []
  | it :: rest =>
    match matchesAllFilters it filters with
    | .error e => .error e
    | .ok true =>
      match applyFiltersLoop filters rest with
      | .error e => .error e
      | .ok l => .ok (it :: l)
    | .ok false => applyFiltersLoop filters rest

/-- `applyFilters`: the empty filter list keeps everything. -/
def applyFilters (items : List QItem) (filters : List Filter) :
    Except GErr (List QItem) :=
  if filters.isEmpty then .ok items else applyFiltersLoop filters items

/-- The `less` closure of `applySorting`: extraction errors sort before
present fields ascending and after them descending; then numeric, string,
and rendered-text comparison, each returning false on ties. -/
def sortLess (sortBy ord : String) (a b : QItem) : Bool :=
  match extractValue a sortBy, extractValue b sortBy with
  | .error _, .ok _ => ord = "asc"
  | .ok _, .error _ => ord = "desc"
  | .error _, .error _ => false
  | .ok valI, .ok valJ =>
    match valI, valJ with
    | .num i, .num j =>
      if i == j then false
      else if ord = "asc" then decide (i < j) else decide (j < i)
    | .str i, .str j =>
      if i == j then false
      else if ord = "asc" then decide (i < j) else decide (j < i)
    | vI, vJ =>
      let si := vI.render
      let sj := vJ.render
      if si == sj then false
      else if ord = "asc" then decide (si < sj) else decide (sj < si)

/-- Insert into a sorted list, after every earlier element that is strictly
less: with the original order processed right to left this is the unique
stable order, modelling `sort.SliceStable`. -/
def insertSorted (less : QItem → QItem → Bool) (x : QItem) :
    List QItem → List QItem
  | [] => [x]
  | y :: ys => if less y x then y :: insertSorted less x ys else x :: y :: ys

/-- Stable insertion sort (model of `sort.SliceStable`). -/
def sortStable (less : QItem → QItem → Bool) : List QItem → List QItem
  | [] => []
  | x :: xs => insertSorted less x (sortStable less xs)

/-- `applySorting`: normalise the order word (anything but `desc`,
case-insensitively, is `asc`) and stable-sort by the extracted sort key. -/
def applySorting (items : List QItem) (sortBy sortOrder : String) : List QItem :=
  let ord := if lowerAscii sortOrder = "desc" then "desc" else "asc"
  sortStable (sortLess sortBy ord) items

/-- `applyPagination`: default the limit to 100 when non-positive, clamp a
negative offset to zero, and slice `[offset, offset+limit)` of the list,
empty when the offset is at or past the end. -/
def applyPagination {α : Type} (items : List α) (limit offset : Int) : List α :=
  let limit₁ := if limit ≤ 0 then 100 else limit
  let offset₁ := if offset < 0 then 0 else offset
  let total : Int := items.length
  if offset₁ ≥ total then []
  else
    let stop := if offset₁ + limit₁ > total then total else offset₁ + limit₁
    (items.drop offset₁.toNat).take (stop - offset₁).toNat

/-- `types.QueryInput`. -/
structure QueryInput where
  filters : List Filter
  sortBy : String
  sortOrder : String
  limit : Int
  offset : Int
  targetType : String

/-- `types.QueryOutput`. -/
structure QueryOutput where
  results : List QItem
  total : Int
  limit : Int
  offset : Int
deriving Repr

/-- `Query`: select the candidate family, filter, count, optionally sort,
paginate, and report the effective limit and offset. -/
def query (g : Graph) (input : QueryInput) : Except GErr QueryOutput :=
  let cands : Except GErr (List QItem) :=
    if input.targetType = "entity" then .ok (g.entities.map (fun p => .ent p.2))
    else if input.targetType = "relation" then .ok (g.relations.map (fun p => .rel p.2))
    else .error (.badArgument input.targetType)
  match cands with
  | .error e => .error e
  | .ok candidates =>
    match applyFilters candidates input.filters with
    | .error e => .error e
    | .ok filtered =>
      let totalCount : Int := filtered.length
      let sorted :=
        if input.sortBy = "" then filtered
        else applySorting filtered input.sortBy input.sortOrder
      let paged := applyPagination sorted input.limit input.offset
      let lim := if input.limit ≤ 0 then 100 else input.limit
      let off := if input.offset < 0 then 0 else input.offset
      .ok ⟨paged, totalCount, lim, off⟩

/-! ## Graph traversal, subgraph extraction and path finding (`part_002`)

The Go BFS and path search drive a worklist until it drains; the models
take a fuel argument to make the recursion structural.  For BFS a concrete
fuel bound is proved sufficient; for path finding every property claimed is
an invariant of the loop and therefore holds at every fuel. -/

/-- Deduplicate a list of entities by id, keeping first occurrences (the Go
code collects neighbors in a map keyed by entity id). -/
def dedupById (l : List Entity) : List Entity :=
  l.foldl (fun acc e => if acc.any (fun x => x.id = e.id) then acc else acc ++ [e]) []

/-- `GetRelationsFrom`: the relations whose source is the given id, in table
order. -/
def relationsFrom (g : Graph) (id : String) : List Relation :=
  (g.relations.filter (fun p => p.2.source = id)).map Prod.snd

/-- The neighbor function used by `Traverse`: entities reached through an
outgoing or incoming relation passing the relation predicate, deduplicated
by id.  With the always-true predicate this is exactly
`DefaultNeighborFunc`. -/
def neighborsFiltered (g : Graph) (relPred : Relation → Bool) (cur : Entity) :
    List Entity :=
  let outs := g.relations.filterMap
    (fun p => if p.2.source = cur.id ∧ relPred p.2 then alookup p.2.target g.entities else none)
  let ins := g.relations.filterMap
    (fun p => if p.2.target = cur.id ∧ relPred p.2 then alookup p.2.source g.entities else none)
  dedupById (outs ++ ins)

/-- Start-node loop of `BFS`: skip ids already visited, fail on an id with
no entity, apply the visit predicate at depth 0, and seed queue and visited
together. -/
def bfsInit (g : Graph) (visitPred : Entity → Nat → Bool) :
    List String → List (Entity × Nat) → List (Entity × Nat) →
    Except GErr (List (Entity × Nat) × List (Entity × Nat))
  | [], q, v => .ok (q, v)
  | sid :: rest, q, v =>
    if v.any (fun p => p.1.id = sid) then bfsInit g visitPred rest q v
    else
      match alookup sid g.entities with
      | none => .error (.notFound sid)
      | some e =>
        if visitPred e 0 then
          bfsInit g visitPred rest (q ++ [(e, 0)]) (v ++ [(e, 0)])
        else bfsInit g visitPred rest q v

/-- Neighbor loop of one `BFS` step: skip already-visited ids, apply the
visit predicate at the next depth, and mark-and-enqueue the rest. -/
def bfsExpand (visitPred : Entity → Nat → Bool) (nd : Nat) :
    List Entity → List (Entity × Nat) → List (Entity × Nat) →
    (List (Entity × Nat) × List (Entity × Nat))
  | [], q, v => (q, v)
  | n :: ns, q, v =>
    if v.any (fun p => p.1.id = n.id) then bfsExpand visitPred nd ns q v
    else if visitPred n nd then
      bfsExpand visitPred nd ns (q ++ [(n, nd)]) (v ++ [(n, nd)])
    else bfsExpand visitPred nd ns q v

/-- Queue loop of `BFS`: pop the front, skip expansion past the depth limit
(a negative limit is unbounded), otherwise expand the neighbors. -/
def bfsLoop (g : Graph) (relPred : Relation → Bool)
    (visitPred : Entity → Nat → Bool) (maxDepth : Int) :
    Nat → List (Entity × Nat) → List (Entity × Nat) → List (Entity × Nat)
  | _, [], v => v
  | 0, _ :: _, v => v
  | fuel + 1, (cur, depth) :: rest, v =>
    if maxDepth ≥ 0 ∧ (depth + 1 : Int) > maxDepth then
      bfsLoop g relPred visitPred maxDepth fuel rest v
    else
      let qv := bfsExpand visitPred (depth + 1) (neighborsFiltered g relPred cur) rest v
      bfsLoop g relPred visitPred maxDepth fuel qv.1 qv.2

/-- Fuel that always drains the BFS queue: each step pops one item, and at
most one item per entity is ever pushed after the initial seeds. -/
def bfsFuel (g : Graph) (startIDs : List String) : Nat :=
  startIDs.length + g.entities.length + 1

/-- `BFS`: the visited association (entity, discovery depth), in discovery
order; an error exactly when a start id names no entity.  The recording
side effect of the Go visit callback is the returned list; the predicate
argument is the callback's boolean result. -/
def bfs (g : Graph) (startIDs : List String) (maxDepth : Int)
    (visitPred : Entity → Nat → Bool) (relPred : Relation → Bool) :
    Except GErr (List (Entity × Nat)) :=
  match bfsInit g visitPred startIDs [] [] with
  | .error e => .error e
  | .ok (q, v) => .ok (bfsLoop g relPred visitPred maxDepth (bfsFuel g startIDs) q v)

/-- `SubgraphResult`: the collected entities (in discovery order, standing
for the Go id-keyed map) and the id-keyed relations. -/
structure SubgraphResult where
  entities : List Entity
  relations : List (String × Relation)
deriving Repr

/-- `ExtractSubgraph`: reject a negative radius, run BFS bounded by the
radius with a visit function that also enforces `depth <= radius` (always
true under that bound) and records every visited entity, then keep every
relation satisfying the relation filter — by default the test that both
endpoints lie in the collected id set.  The relation filter receives the
collected id set, as the Go filter receives the subgraph set. -/
def extractSubgraph (g : Graph) (startIDs : List String) (radius : Int)
    (nodeVisit : Option (Entity → Nat → Bool))
    (relFilter : Option (Relation → List String → Bool)) :
    Except GErr SubgraphResult :=
  if radius < 0 then .error (.badArgument "radius")
  else
    let visitFn : Entity → Nat → Bool := fun e depth =>
      (match nodeVisit with
        | none => true
        | some f => f e depth) && decide ((depth : Int) ≤ radius)
    match bfs g startIDs radius visitFn (fun _ => true) with
    | .error e => .error e
    | .ok visited =>
      let entIds := visited.map (fun p => p.1.id)
      let relOk : Relation → Bool := fun r =>
        match relFilter with
        | none => entIds.contains r.source && entIds.contains r.target
        | some f => f r entIds
      .ok ⟨visited.map Prod.fst, g.relations.filter (fun p => relOk p.2)⟩

/-- An element of a found path: the Go `[]interface{}` alternates entities
and relations. -/
inductive PElem where
  | pe (e : Entity)
  | pr (r : Relation)
deriving Repr

/-- A path: the alternating entity/relation sequence. -/
abbrev GPath := List PElem

/-- One work item of the path search.  The Go code re-reads the last node by
asserting on the final slice element; paths are only ever extended with an
entity last, so the model carries that entity alongside, together with the
per-path visited id set. -/
structure PathWork where
  path : GPath
  last : Entity
  visited : List String

/-- One candidate extension of a work item along an outgoing relation: the
target must exist, must not already be on this path, and — together with
the relation — must pass the optional filter at the new length. -/
def extendWork (g : Graph) (filterFn : Option (PElem → Nat → Bool))
    (w : PathWork) (rel : Relation) : Option PathWork :=
  match alookup rel.target g.entities with
  | none => none
  | some nb =>
    if w.visited.contains nb.id then none
    else if (match filterFn with
        | some f => f (.pr rel) (w.path.length / 2 + 1) && f (.pe nb) (w.path.length / 2 + 1)
        | none => true) then
      some ⟨w.path ++ [.pr rel, .pe nb], nb, w.visited ++ [nb.id]⟩
    else none

/-- Worklist loop of `FindPaths`: a popped path ending at the target is
recorded and not extended; otherwise, unless extending would exceed the
length bound (negative bound is unbounded), every outgoing relation spawns
its candidate extension. -/
def findPathsLoop (g : Graph) (endNodeID : String) (maxLength : Int)
    (filterFn : Option (PElem → Nat → Bool)) :
    Nat → List PathWork → List GPath → List GPath
  | _, [], acc => acc
  | 0, _ :: _, acc => acc
  | fuel + 1, w :: rest, acc =>
    if w.last.id = endNodeID then
      findPathsLoop g endNodeID maxLength filterFn fuel rest (acc ++ [w.path])
    else
      if maxLength ≥ 0 ∧ ((w.path.length / 2 : Nat) : Int) ≥ maxLength then
        findPathsLoop g endNodeID maxLength filterFn fuel rest acc
      else
        findPathsLoop g endNodeID maxLength filterFn fuel
          (rest ++ (relationsFrom g w.last.id).filterMap (extendWork g filterFn w)) acc

/-- `FindPaths`: an error exactly when the start id names no entity; a
filtered-out start yields no paths; otherwise run the worklist, seeded with
the one-entity path.  The fuel argument stands for running the Go loop to
completion: every property proved of the result is an invariant holding at
any fuel. -/
def findPaths (g : Graph) (startNodeID endNodeID : String) (maxLength : Int)
    (filterFn : Option (PElem → Nat → Bool)) (fuel : Nat) :
    Except GErr (List GPath) :=
  match alookup startNodeID g.entities with
  | none => .error (.notFound startNodeID)
  | some startNode =>
    if (match filterFn with
        | some f => !f (.pe startNode) 0
        | none => false) then .ok []
    else
      .ok (findPathsLoop g endNodeID maxLength filterFn fuel
        [⟨[.pe startNode], startNode, [startNodeID]⟩] [])

/-! ## Specification-side notions used to state the claims -/

/-- Reachability in exactly `n` filtered undirected steps from the start
set: the sources are the entities named by a start id that pass the node
predicate, and one step follows the filtered neighbor function.  This is
the "relation-sequence subject to the active filters" of the BFS claim. -/
inductive ReachN (g : Graph) (startIDs : List String)
    (nodePred : Entity → Bool) (relPred : Relation → Bool) : Nat → Entity → Prop
  | source {e : Entity} (sid : String) (hsid : sid ∈ startIDs)
      (hlook : alookup sid g.entities = some e) (hpred : nodePred e = true) :
      ReachN g startIDs nodePred relPred 0 e
  | step {n : Nat} {a b : Entity} (ha : ReachN g startIDs nodePred relPred n a)
      (hnb : b ∈ neighborsFiltered g relPred a) (hpred : nodePred b = true) :
      ReachN g startIDs nodePred relPred (n + 1) b

/-- Is BFS allowed to expand a node discovered at this depth — the negation
of the source's `maxDepth >= 0 && nextDepth > maxDepth` skip test. -/
def ExpandOK (md : Int) (d : Nat) : Prop := md < 0 ∨ ((d : Int) + 1 ≤ md)

/-- The BFS worklist invariant tying the queue and the visited association
to the filtered reachability relation.  The fields are: every visited
entry passes the node predicate, is reachable at its recorded depth, obeys
the depth bound, and is the stored entity of its id; visited ids are
distinct; the queue is a sub-collection of visited with distinct ids; queue
depths are non-decreasing and span at most two consecutive levels; no
visited depth exceeds any queue depth by more than one; and every visited
entry that has left the queue and was allowed to expand has all its
accepted neighbors visited within one extra level. -/
structure BfsInv (g : Graph) (startIDs : List String) (nodePred : Entity → Bool)
    (relPred : Relation → Bool) (md : Int)
    (Q V : List (Entity × Nat)) : Prop where
  vprops : ∀ p ∈ V, nodePred p.1 = true ∧
    ReachN g startIDs nodePred relPred p.2 p.1 ∧
    (0 ≤ md → (p.2 : Int) ≤ md) ∧ alookup p.1.id g.entities = some p.1
  vnodup : (V.map (fun p => p.1.id)).Nodup
  qsubv : ∀ p ∈ Q, p ∈ V
  qnodup : (Q.map (fun p => p.1.id)).Nodup
  qlevels : Q.Pairwise (fun p q => p.2 ≤ q.2 ∧ q.2 ≤ p.2 + 1)
  vqbound : ∀ p ∈ V, ∀ q ∈ Q, p.2 ≤ q.2 + 1
  processed : ∀ p ∈ V, (¬ ∃ q ∈ Q, q.1.id = p.1.id) → ExpandOK md p.2 →
    ∀ n ∈ neighborsFiltered g relPred p.1, nodePred n = true →
      ∃ dn, (n, dn) ∈ V ∧ dn ≤ p.2 + 1

/-- A path is a well-linked alternating sequence: entity, relation, entity,
…, entity, where each relation starts at the entity before it and ends at
the entity after it. -/
def chainedB : GPath → Bool
  | [.pe _] => true
  | .pe e :: .pr r :: rest =>
    r.source = e.id &&
      (match rest with
        | .pe e₁ :: _ => r.target = e₁.id && chainedB rest
        | _ => false)
  | _ => false

/-- Number of relations on a path (the path length of the spec). -/
def pathRelCount (p : GPath) : Nat :=
  p.countP (fun el => match el with | .pr _ => true | .pe _ => false)

/-- The entity ids on a path, in order. -/
def pathEntityIds (p : GPath) : List String :=
  p.filterMap (fun el => match el with | .pe e => some e.id | .pr _ => none)

/-- Invariant of one `FindPaths` work item: the carried path is well
linked, ends in the carried entity, its entity ids are exactly the carried
visited list, those ids are distinct, and the carried entity is the stored
entity under its own id. -/
def WInv (g : Graph) (w : PathWork) : Prop :=
  chainedB w.path = true ∧
  w.path.getLast? = some (.pe w.last) ∧
  pathEntityIds w.path = w.visited ∧
  w.visited.Nodup ∧
  alookup w.last.id g.entities = some w.last

/-- Properties of an emitted path, as the C4 claim states them (with the
length bound active only for a non-negative bound). -/
def PathProps (g : Graph) (L : Int) (p : GPath) : Prop :=
  chainedB p = true ∧ (pathEntityIds p).Nodup ∧
  (0 ≤ L → (pathRelCount p : Int) ≤ L) ∧
  ∃ e, p.getLast? = some (.pe e) ∧ alookup e.id g.entities = some e

/-! ## Concrete inputs used by witnesses and counterexamples -/

/-- A small entity constructor for examples. -/
def exEnt (i ty : String) (meta : Option JObj) : Entity := ⟨i, ty, i, "", meta⟩

/-- A small relation constructor for examples. -/
def exRel (i s t : String) : Relation := ⟨i, "knows", s, t, "", none, 0, false⟩

/-- Example graph: five entities, five relations (the traversal scenario of
the specification's test section). -/
def exGraph : Graph :=
  ⟨[("A", exEnt "A" "Person" none), ("B", exEnt "B" "Person" none),
    ("C", exEnt "C" "Person" none), ("Acme", exEnt "Acme" "Company" none),
    ("CityA", exEnt "CityA" "City" none)],
   [("r1", exRel "r1" "A" "B"), ("r2", exRel "r2" "A" "C"),
    ("r3", exRel "r3" "B" "Acme"), ("r4", exRel "r4" "C" "B"),
    ("r5", exRel "r5" "Acme" "CityA")], []⟩

/-- Entity whose metadata has key `a` bound to a number (the C1 failing
input's pre-image). -/
def exMetaEnt : Entity := ⟨"e1", "t", "n", "", some [("a", JVal.num 1)]⟩

/-- Graph holding only `exMetaEnt`. -/
def exMetaGraph : Graph := ⟨[("e1", exMetaEnt)], [], []⟩

/-- The C1 failing update map: the first path succeeds and mutates the
shared metadata map, the second errors on a non-map intermediate. -/
def exBadUpdates : List (String × JVal) := [("x", JVal.num 2), ("a.b", JVal.num 3)]

/-- Entity with an empty (non-nil) metadata map: no key is present. -/
def exEmptyMetaEnt : Entity := ⟨"b", "t", "n", "", some []⟩

/-- Query example graph from the specification's test section. -/
def exQueryGraph : Graph :=
  ⟨[("e1", ⟨"e1", "Person", "A", "", some [("city", JVal.str "New York"), ("age", JVal.num 30)]⟩),
    ("e2", ⟨"e2", "Person", "B", "", some [("city", JVal.str "London"), ("age", JVal.num 25)]⟩),
    ("e3", ⟨"e3", "Company", "C", "", some [("city", JVal.str "New York")]⟩),
    ("e4", ⟨"e4", "Person", "D", "", some [("city", JVal.str "New York"), ("age", JVal.num 35)]⟩)],
   [], []⟩

/-- Observation constructor for examples. -/
def exObs (i eid : String) (ts : Int) : Observation := ⟨i, eid, "log", "", "", none, ts, []⟩

/-- Graph with two entities and two observations, for the deletion
witnesses. -/
def exDelGraph : Graph :=
  ⟨[("A", exEnt "A" "Person" none), ("B", exEnt "B" "Person" none)],
   [],
   [("o1", exObs "o1" "A" 1), ("o2", exObs "o2" "B" 2)]⟩

/-! # Theorems

Association-list lemmas first, then the general lemmas about each
component, then one theorem per claim with its witness or counterexample. -/

/-- Setting a key makes it readable. -/
theorem alookup_aset_self {β : Type} (k : String) (v : β) (l : List (String × β)) :
    alookup k (aset k v l) = some v := by
  induction l with
  | nil => simp [aset, alookup]
  | cons p rest ih =>
    obtain ⟨k₁, v₁⟩ := p
    by_cases h : k₁ = k
    · simp [aset, h, alookup]
    · simp [aset, h, alookup, ih]

/-- Setting a key leaves the other keys unchanged. -/
theorem alookup_aset_ne {β : Type} {k₁ k : String} (h : k₁ ≠ k) (v : β)
    (l : List (String × β)) : alookup k₁ (aset k v l) = alookup k₁ l := by
  induction l with
  | nil => simp [aset, alookup, Ne.symm h]
  | cons p rest ih =>
    obtain ⟨k₂, v₂⟩ := p
    by_cases h₂ : k₂ = k
    · subst h₂
      simp [aset, alookup, Ne.symm h]
    · simp only [aset, if_neg h₂, alookup]
      by_cases h₃ : k₂ = k₁ <;> simp [h₃, ih]

/-- Erasing a key makes it unreadable. -/
theorem alookup_aerase_self {β : Type} (k : String) (l : List (String × β)) :
    alookup k (aerase k l) = none := by
  induction l with
  | nil => simp [aerase, alookup]
  | cons p rest ih =>
    obtain ⟨k₁, v₁⟩ := p
    by_cases h : k₁ = k
    · simp [aerase, h, ih]
    · simp [aerase, h, alookup, ih]

/-- Erasing a key leaves the other keys unchanged. -/
theorem alookup_aerase_ne {β : Type} {k₁ k : String} (h : k₁ ≠ k)
    (l : List (String × β)) : alookup k₁ (aerase k l) = alookup k₁ l := by
  induction l with
  | nil => simp [aerase]
  | cons p rest ih =>
    obtain ⟨k₂, v₂⟩ := p
    by_cases h₂ : k₂ = k
    · subst h₂
      simp [aerase, alookup, Ne.symm h, ih]
    · simp only [aerase, if_neg h₂, alookup]
      by_cases h₃ : k₂ = k₁ <;> simp [h₃, ih]

/-- A key outside the key list is unreadable. -/
theorem alookup_eq_none_of_not_mem {β : Type} {k : String}
    {l : List (String × β)} (h : k ∉ l.map Prod.fst) : alookup k l = none := by
  induction l with
  | nil => simp [alookup]
  | cons p rest ih =>
    obtain ⟨k₁, v₁⟩ := p
    simp only [List.map_cons, List.mem_cons, not_or] at h
    simp [alookup, Ne.symm h.1, ih h.2]

/-- Lookup over the one-level merge fold: keys of the patch win, the rest
fall through, provided the patch keys are unique (they come from a Go
map). -/
theorem alookup_mergeFold (vm : List (String × JVal)) (em : JObj) (k : String)
    (hnd : (vm.map Prod.fst).Nodup) :
    alookup k (vm.foldl (fun m kv => aset kv.1 kv.2 m) em) =
      (alookup k vm).or (alookup k em) := by
  induction vm generalizing em with
  | nil => simp [alookup]
  | cons p tl ih =>
    obtain ⟨k₀, v₀⟩ := p
    simp only [List.map_cons, List.nodup_cons] at hnd
    simp only [List.foldl_cons]
    rw [ih _ hnd.2]
    by_cases hk : k₀ = k
    · subst hk
      have htl : alookup k₀ tl = none := alookup_eq_none_of_not_mem hnd.1
      simp [alookup, htl, alookup_aset_self]
    · rw [alookup_aset_ne (Ne.symm hk)]
      simp [alookup, if_neg hk]

/-- Descending from a fresh empty map, `merge` and `replace` always
succeed: every intermediate is auto-created and the leaf operation cannot
fail. -/
theorem setNestedParts_empty_ok (rest : List String) (v : JVal) (op : String)
    (hop : op = "merge" ∨ op = "replace") :
    ∃ inner, setNestedParts [] rest v op = .ok inner := by
  induction rest with
  | nil => exact ⟨[], rfl⟩
  | cons part rest ih =>
    cases rest with
    | nil =>
      rcases hop with h | h <;> subst h
      · exact ⟨aset part v [], by simp [setNestedParts, alookup]⟩
      · exact ⟨aset part v [], by simp [setNestedParts]⟩
    | cons p₂ r₂ =>
      obtain ⟨inner, hi⟩ := ih
      refine ⟨aset part (.obj inner) [], ?_⟩
      have hne : op ≠ "delete" := by rcases hop with h | h <;> subst h <;> decide
      simp [setNestedParts, alookup, hi, hne]

/-- C5: dot-path semantics of the metadata mutation helper.  `merge` and
`replace` auto-create absent intermediate maps; a non-map value at an
intermediate step is a bad-argument error for `merge`/`replace` and a no-op
for `delete` (as is an absent intermediate); at the leaf, `merge` does a
one-level key overwrite when both sides are maps and otherwise replaces the
old value outright, `replace` always overwrites, and `delete` removes the
leaf key ignoring the supplied value. -/
theorem c5_dot_path_mutation :
    -- replace at the leaf always overwrites; other keys are untouched
    (∀ (cur : JObj) (part : String) (v : JVal),
      setNestedParts cur [part] v "replace" = .ok (aset part v cur) ∧
      alookup part (aset part v cur) = some v ∧
      (∀ k, k ≠ part → alookup k (aset part v cur) = alookup k cur)) ∧
    -- merge at the leaf: an absent key, or not both sides maps, replaces
    (∀ (cur : JObj) (part : String) (v : JVal),
      (alookup part cur = none →
        setNestedParts cur [part] v "merge" = .ok (aset part v cur)) ∧
      (∀ old, alookup part cur = some old → (old.isObj && v.isObj) = false →
        setNestedParts cur [part] v "merge" = .ok (aset part v cur))) ∧
    -- merge at the leaf with maps on both sides: one-level key overwrite
    (∀ (cur : JObj) (part : String) (em vm : List (String × JVal)),
      alookup part cur = some (.obj em) → (vm.map Prod.fst).Nodup →
      ∃ m, setNestedParts cur [part] (.obj vm) "merge" = .ok (aset part (.obj m) cur) ∧
        ∀ k, alookup k m = (alookup k vm).or (alookup k em)) ∧
    -- delete at the leaf removes the key; the supplied value is ignored
    (∀ (cur : JObj) (part : String) (v w : JVal),
      setNestedParts cur [part] v "delete" = .ok (aerase part cur) ∧
      setNestedParts cur [part] v "delete" = setNestedParts cur [part] w "delete" ∧
      alookup part (aerase part cur) = none ∧
      (∀ k, k ≠ part → alookup k (aerase part cur) = alookup k cur)) ∧
    -- absent intermediate: no-op for delete, auto-created for merge/replace
    (∀ (cur : JObj) (part p₂ : String) (rest : List String) (v : JVal),
      alookup part cur = none →
      setNestedParts cur (part :: p₂ :: rest) v "delete" = .ok cur ∧
      (∀ op, op = "merge" ∨ op = "replace" →
        ∃ inner, setNestedParts [] (p₂ :: rest) v op = .ok inner ∧
          setNestedParts cur (part :: p₂ :: rest) v op = .ok (aset part (.obj inner) cur))) ∧
    -- non-map intermediate: no-op for delete, bad argument otherwise
    (∀ (cur : JObj) (part p₂ : String) (rest : List String) (v next : JVal),
      alookup part cur = some next → next.isObj = false →
      setNestedParts cur (part :: p₂ :: rest) v "delete" = .ok cur ∧
      (∀ op, op = "merge" ∨ op = "replace" →
        setNestedParts cur (part :: p₂ :: rest) v op = .error (.badArgument part))) ∧
    -- the path is split on dots
    (∀ (data : JObj) (path : String) (v : JVal) (op : String),
      setNestedValue data path v op = setNestedParts data (splitPath path) v op) := by
  refine ⟨?_, ?_, ?_, ?_, ?_, ?_, ?_⟩
  · intro cur part v
    exact ⟨rfl, alookup_aset_self part v cur, fun k hk => alookup_aset_ne hk v cur⟩
  · intro cur part v
    constructor
    · intro h
      simp [setNestedParts, h]
    · intro old h hno
      cases old <;> cases v <;> simp_all [setNestedParts, JVal.isObj]
  · intro cur part em vm h hnd
    refine ⟨vm.foldl (fun m kv => aset kv.1 kv.2 m) em, ?_, ?_⟩
    · simp [setNestedParts, h]
    · intro k
      exact alookup_mergeFold vm em k hnd
  · intro cur part v w
    exact ⟨rfl, rfl, alookup_aerase_self part cur,
      fun k hk => alookup_aerase_ne hk cur⟩
  · intro cur part p₂ rest v h
    constructor
    · simp [setNestedParts, h]
    · intro op hop
      obtain ⟨inner, hi⟩ := setNestedParts_empty_ok (p₂ :: rest) v op hop
      have hne : op ≠ "delete" := by rcases hop with h₁ | h₁ <;> subst h₁ <;> decide
      exact ⟨inner, hi, by simp [setNestedParts, h, hne, hi]⟩
  · intro cur part p₂ rest v next h hno
    constructor
    · cases next <;> simp_all [setNestedParts, JVal.isObj]
    · intro op hop
      have hne : op ≠ "delete" := by rcases hop with h₁ | h₁ <;> subst h₁ <;> decide
      cases next <;> simp_all [setNestedParts, JVal.isObj]
  · intro data path v op
    rfl

/-- C5 witness: the theorem applied at concrete inputs — a map/map merge at
key `a`, a delete of key `a`, and a bad-argument descent through the
non-map value at `a`. -/
theorem c5_dot_path_mutation_witness :
    (∃ m, setNestedParts [("a", JVal.obj [("x", JVal.num 1)])] ["a"]
        (JVal.obj [("y", JVal.num 2)]) "merge" =
        .ok (aset "a" (.obj m) [("a", JVal.obj [("x", JVal.num 1)])]) ∧
      ∀ k, alookup k m =
        (alookup k [("y", JVal.num 2)]).or (alookup k [("x", JVal.num 1)])) ∧
    (setNestedParts [("a", JVal.num 1)] ["a", "b"] (JVal.num 3) "delete" =
      .ok [("a", JVal.num 1)] ∧
      (∀ op, op = "merge" ∨ op = "replace" →
        setNestedParts [("a", JVal.num 1)] ["a", "b"] (JVal.num 3) op =
          .error (.badArgument "a"))) :=
  ⟨c5_dot_path_mutation.2.2.1 _ "a" _ _ rfl (by decide),
   c5_dot_path_mutation.2.2.2.2.2.1 _ "a" "b" [] _ _ rfl rfl⟩

/-- C1 (code bug): evaluating `UpdateMetadataForEntity` at the failing
input.  The pre-image of entity `e1` binds `a` to a number; the update map
applies path `x` first (which succeeds and mutates the shared metadata map)
and then path `a.b` (which errors on the non-map intermediate `a`).  The
call returns the error, but the stored entity's metadata is the partially
updated object, not the pre-image — the rollback only rebinds the local
struct copy. -/
theorem c1_rollback_failing_input :
    exMetaEnt.metadata = some [("a", JVal.num 1)] ∧
    (updateMetadataForEntity exMetaGraph "e1" exBadUpdates "merge" true).out =
      .error (.badArgument "a") ∧
    alookup "e1"
        (updateMetadataForEntity exMetaGraph "e1" exBadUpdates "merge" true).graph.entities =
      some ⟨"e1", "t", "n", "", some [("a", JVal.num 1), ("x", JVal.num 2)]⟩ :=
  ⟨rfl, rfl, rfl⟩

/-- A deletion loop that succeeds on a prefix continues on the remainder
from the table the prefix left behind. -/
theorem deleteByIdLoop_append {β : Type} (pre l : List String)
    (tbl tbl₁ : List (String × β)) (h : deleteByIdLoop pre tbl = (tbl₁, none)) :
    deleteByIdLoop (pre ++ l) tbl = deleteByIdLoop l tbl₁ := by
  induction pre generalizing tbl with
  | nil =>
    simp only [deleteByIdLoop] at h
    cases h
    simp
  | cons id rest ih =>
    simp only [deleteByIdLoop, List.cons_append] at h ⊢
    cases halo : alookup id tbl with
    | none => simp [halo] at h
    | some v => simp only [halo] at h ⊢; exact ih _ h

/-- C9: a mid-list missing id in delete-entities or delete-observations
returns a not-found error with no partial success in the reply, yet the
deletions of the ids before it remain applied in memory and persistence is
not triggered.  `tbl₁` is the table after the prefix deletions; `x` is the
first id that no longer exists. -/
theorem c9_delete_mid_list_not_found :
    (∀ (g : Graph) (pre : List String) (x : String) (rest : List String)
      (saveOk : Bool) (tbl₁ : List (String × Entity)),
      deleteByIdLoop pre g.entities = (tbl₁, none) →
      alookup x tbl₁ = none →
      deleteEntities g (pre ++ x :: rest) saveOk =
        ⟨{ g with entities := tbl₁ }, .error (.notFound x), false⟩) ∧
    (∀ (g : Graph) (pre : List String) (x : String) (rest : List String)
      (saveOk : Bool) (tbl₁ : List (String × Observation)),
      deleteByIdLoop pre g.observations = (tbl₁, none) →
      alookup x tbl₁ = none →
      deleteObservations g (pre ++ x :: rest) saveOk =
        ⟨{ g with observations := tbl₁ }, .error (.notFound x), false⟩) := by
  constructor
  · intro g pre x rest saveOk tbl₁ hpre hx
    unfold deleteEntities
    rw [deleteByIdLoop_append pre (x :: rest) g.entities tbl₁ hpre]
    simp [deleteByIdLoop, hx]
  · intro g pre x rest saveOk tbl₁ hpre hx
    unfold deleteObservations
    rw [deleteByIdLoop_append pre (x :: rest) g.observations tbl₁ hpre]
    simp [deleteByIdLoop, hx]

/-- C9 witness: deleting `[A, zz, B]` from the two-entity graph stops at
the missing id `zz` with `A` already removed and no save, and likewise for
observations `[o1, zz, o2]`. -/
theorem c9_delete_mid_list_not_found_witness :
    deleteEntities exDelGraph ["A", "zz", "B"] true =
      ⟨{ exDelGraph with entities := [("B", exEnt "B" "Person" none)] },
        .error (.notFound "zz"), false⟩ ∧
    deleteObservations exDelGraph ["o1", "zz", "o2"] true =
      ⟨{ exDelGraph with observations := [("o2", exObs "o2" "B" 2)] },
        .error (.notFound "zz"), false⟩ :=
  ⟨c9_delete_mid_list_not_found.1 exDelGraph ["A"] "zz" ["B"] true _ rfl rfl,
   c9_delete_mid_list_not_found.2 exDelGraph ["o1"] "zz" ["o2"] true _ rfl rfl⟩

/-- A creation loop that succeeds on a prefix continues on the remainder
from the state the prefix left behind. -/
theorem createEntitiesLoop_append (gen : Nat → String) (pre l : List Entity)
    (tbl tbl₁ : List (String × Entity)) (acc acc₁ : List Entity) (n n₁ : Nat)
    (h : createEntitiesLoop gen pre tbl acc n = (tbl₁, acc₁, n₁, none)) :
    createEntitiesLoop gen (pre ++ l) tbl acc n =
      createEntitiesLoop gen l tbl₁ acc₁ n₁ := by
  induction pre generalizing tbl acc n with
  | nil =>
    simp only [createEntitiesLoop] at h
    cases h
    simp
  | cons e rest ih =>
    simp only [createEntitiesLoop, List.cons_append] at h ⊢
    cases halo : alookup (if e.id = "" then { e with id := gen n } else e).id tbl with
    | some v => simp [halo] at h
    | none => simp only [halo] at h ⊢; exact ih _ _ _ h

/-- Like `createEntitiesLoop_append`, for the relation loop. -/
theorem createRelationsLoop_append (gen : Nat → String)
    (ents : List (String × Entity)) (pre l : List Relation)
    (tbl tbl₁ : List (String × Relation)) (acc acc₁ : List Relation) (n n₁ : Nat)
    (h : createRelationsLoop gen ents pre tbl acc n = (tbl₁, acc₁, n₁, none)) :
    createRelationsLoop gen ents (pre ++ l) tbl acc n =
      createRelationsLoop gen ents l tbl₁ acc₁ n₁ := by
  induction pre generalizing tbl acc n with
  | nil =>
    simp only [createRelationsLoop] at h
    cases h
    simp
  | cons r rest ih =>
    simp only [createRelationsLoop, List.cons_append] at h ⊢
    cases halo : alookup (if r.id = "" then { r with id := gen n } else r).id tbl with
    | some v => simp [halo] at h
    | none =>
      simp only [halo] at h ⊢
      by_cases hs : (alookup (if r.id = "" then { r with id := gen n } else r).source ents).isNone
      · rw [if_pos hs] at h; simp at h
      · rw [if_neg hs] at h ⊢
        by_cases ht : (alookup (if r.id = "" then { r with id := gen n } else r).target ents).isNone
        · rw [if_pos ht] at h; simp at h
        · rw [if_neg ht] at h ⊢; exact ih _ _ _ h

/-- C10: when the element after a valid prefix fails validation in
create-entities (duplicate id) or create-relations (duplicate id, or a
missing source or target entity), the call errors, the prefix insertions
remain in the in-memory store, and the document is not persisted by this
call.  `tbl₁` is the table with the prefix already inserted. -/
theorem c10_create_partial_inserts :
    (∀ (g : Graph) (gen : Nat → String) (saveOk : Bool) (pre : List Entity)
      (x : Entity) (rest : List Entity) (tbl₁ : List (String × Entity))
      (acc₁ : List Entity) (n₁ : Nat),
      createEntitiesLoop gen pre g.entities [] 0 = (tbl₁, acc₁, n₁, none) →
      x.id ≠ "" → (alookup x.id tbl₁).isSome →
      createEntities g (pre ++ x :: rest) gen saveOk =
        ⟨{ g with entities := tbl₁ }, .error (.conflict x.id), false⟩) ∧
    (∀ (g : Graph) (gen : Nat → String) (saveOk : Bool) (pre : List Relation)
      (x : Relation) (rest : List Relation) (tbl₁ : List (String × Relation))
      (acc₁ : List Relation) (n₁ : Nat),
      createRelationsLoop gen g.entities pre g.relations [] 0 = (tbl₁, acc₁, n₁, none) →
      x.id ≠ "" →
      ((alookup x.id tbl₁).isSome →
        createRelations g (pre ++ x :: rest) gen saveOk =
          ⟨{ g with relations := tbl₁ }, .error (.conflict x.id), false⟩) ∧
      (alookup x.id tbl₁ = none → alookup x.source g.entities = none →
        createRelations g (pre ++ x :: rest) gen saveOk =
          ⟨{ g with relations := tbl₁ }, .error (.notFound x.source), false⟩) ∧
      (alookup x.id tbl₁ = none → (alookup x.source g.entities).isSome →
        alookup x.target g.entities = none →
        createRelations g (pre ++ x :: rest) gen saveOk =
          ⟨{ g with relations := tbl₁ }, .error (.notFound x.target), false⟩)) := by
  constructor
  · intro g gen saveOk pre x rest tbl₁ acc₁ n₁ hpre hid hdup
    unfold createEntities
    rw [createEntitiesLoop_append gen pre (x :: rest) g.entities tbl₁ [] acc₁ 0 n₁ hpre]
    obtain ⟨e, he⟩ := Option.isSome_iff_exists.mp hdup
    simp [createEntitiesLoop, hid, he]
  · intro g gen saveOk pre x rest tbl₁ acc₁ n₁ hpre hid
    refine ⟨?_, ?_, ?_⟩
    · intro hdup
      unfold createRelations
      rw [createRelationsLoop_append gen g.entities pre (x :: rest) g.relations tbl₁ [] acc₁ 0 n₁ hpre]
      obtain ⟨r, hr⟩ := Option.isSome_iff_exists.mp hdup
      simp [createRelationsLoop, hid, hr]
    · intro hdup hsrc
      unfold createRelations
      rw [createRelationsLoop_append gen g.entities pre (x :: rest) g.relations tbl₁ [] acc₁ 0 n₁ hpre]
      simp [createRelationsLoop, hid, hdup, hsrc]
    · intro hdup hsrc htgt
      unfold createRelations
      rw [createRelationsLoop_append gen g.entities pre (x :: rest) g.relations tbl₁ [] acc₁ 0 n₁ hpre]
      obtain ⟨e, he⟩ := Option.isSome_iff_exists.mp hsrc
      simp [createRelationsLoop, hid, hdup, he, htgt]

/-- C10 witness: inserting `[C, A]` into the two-entity graph stops at the
duplicate id `A` with `C` already inserted and no save; creating a relation
whose target is missing errors likewise with the valid prefix inserted. -/
theorem c10_create_partial_inserts_witness :
    createEntities exDelGraph [exEnt "C" "Person" none, exEnt "A" "Person" none]
        (fun _ => "u") true =
      ⟨{ exDelGraph with entities :=
          [("A", exEnt "A" "Person" none), ("B", exEnt "B" "Person" none),
           ("C", exEnt "C" "Person" none)] },
        .error (.conflict "A"), false⟩ ∧
    createRelations exDelGraph [exRel "r1" "A" "B", exRel "r2" "A" "zz"]
        (fun _ => "u") true =
      ⟨{ exDelGraph with relations := [("r1", exRel "r1" "A" "B")] },
        .error (.notFound "zz"), false⟩ :=
  ⟨c10_create_partial_inserts.1 exDelGraph (fun _ => "u") true
      [exEnt "C" "Person" none] (exEnt "A" "Person" none) [] _ _ _ rfl
      (by decide) rfl,
   (c10_create_partial_inserts.2 exDelGraph (fun _ => "u") true
      [exRel "r1" "A" "B"] (exRel "r2" "A" "zz") [] _ _ _ rfl
      (by decide)).2.2 rfl rfl rfl⟩

/-- C8: patching semantics of update-entities.  When every patch names an
existing entity, the call applies the patches in order and saves; one patch
replaces `type`, `name` and `description` exactly when the patch value is
non-empty and preserves the stored value otherwise, leaves `id` unchanged,
keeps the stored metadata when the patch carries none, and otherwise
shallow-merges: a key of the patch map reads back its patch value, every
other key reads back its stored value. -/
theorem c8_update_entities_patching :
    (∀ (g : Graph) (us : List Entity),
      validateUpdates g.entities us = none →
      updateEntities g us true =
        ⟨{ g with entities := (applyUpdates us g.entities []).1 },
          .ok (applyUpdates us g.entities []).2, true⟩) ∧
    (∀ (e u : Entity),
      (applyEntityPatch e u).id = e.id ∧
      (applyEntityPatch e u).type = (if u.type = "" then e.type else u.type) ∧
      (applyEntityPatch e u).name = (if u.name = "" then e.name else u.name) ∧
      (applyEntityPatch e u).description =
        (if u.description = "" then e.description else u.description)) ∧
    (∀ (e u : Entity), u.metadata = none →
      (applyEntityPatch e u).metadata = e.metadata) ∧
    (∀ (e u : Entity) (pm : JObj), u.metadata = some pm →
      (pm.map Prod.fst).Nodup →
      ∀ k, alookup k ((applyEntityPatch e u).metadata.getD []) =
        (alookup k pm).or (alookup k (e.metadata.getD []))) := by
  refine ⟨?_, ?_, ?_, ?_⟩
  · intro g us h
    unfold updateEntities
    rw [h]
    rcases hsplit : applyUpdates us g.entities [] with ⟨ents₁, results⟩
    simp [hsplit]
  · intro e u
    exact ⟨rfl, rfl, rfl, rfl⟩
  · intro e u h
    simp [applyEntityPatch, h]
  · intro e u pm h hnd k
    simp only [applyEntityPatch, h]
    exact alookup_mergeFold pm (e.metadata.getD []) k hnd

/-- C8 witness: patch entity `A` with a new name, an empty type and
description (preserved), and a metadata map binding `b`; the stored entity
keeps its type, gains the name, and its metadata answers `b` from the patch
and `a` from the stored map. -/
theorem c8_update_entities_patching_witness :
    (updateEntities ⟨[("A", ⟨"A", "Person", "Ann", "d", some [("a", JVal.num 1)]⟩)], [], []⟩
        [⟨"A", "", "Nora", "", some [("b", JVal.num 2)]⟩] true =
      ⟨⟨[("A", ⟨"A", "Person", "Nora", "d", some [("a", JVal.num 1), ("b", JVal.num 2)]⟩)], [], []⟩,
        .ok [⟨"A", "Person", "Nora", "d", some [("a", JVal.num 1), ("b", JVal.num 2)]⟩], true⟩) ∧
    (∀ k, alookup k ((applyEntityPatch ⟨"A", "Person", "Ann", "d", some [("a", JVal.num 1)]⟩
        ⟨"A", "", "Nora", "", some [("b", JVal.num 2)]⟩).metadata.getD []) =
      (alookup k [("b", JVal.num 2)]).or (alookup k [("a", JVal.num 1)])) :=
  ⟨c8_update_entities_patching.1 ⟨[("A", ⟨"A", "Person", "Ann", "d", some [("a", JVal.num 1)]⟩)], [], []⟩
      [⟨"A", "", "Nora", "", some [("b", JVal.num 2)]⟩] rfl,
   c8_update_entities_patching.2.2.2 _ _ [("b", JVal.num 2)] rfl (by decide)⟩

/-- `applyPagination` is the contiguous sub-slice `[offset, offset+limit)`
of the list, after replacing a non-positive limit by 100 and a negative
offset by 0. -/
theorem applyPagination_eq_drop_take {α : Type} (items : List α) (limit offset : Int) :
    applyPagination items limit offset =
      (items.drop (if offset < 0 then 0 else offset).toNat).take
        (if limit ≤ 0 then 100 else limit).toNat := by
  unfold applyPagination
  set lim := if limit ≤ 0 then (100 : Int) else limit with hlim
  set off := if offset < 0 then (0 : Int) else offset with hoff
  have hoff0 : 0 ≤ off := by
    rw [hoff]; split <;> omega
  have hlim0 : 0 < lim := by
    rw [hlim]; split <;> omega
  by_cases hge : off ≥ (items.length : Int)
  · rw [if_pos hge]
    have : items.length ≤ off.toNat := by omega
    rw [List.drop_eq_nil_of_le this, List.take_nil]
  · rw [if_neg hge]
    by_cases hstop : off + lim > (items.length : Int)
    · rw [if_pos hstop]
      have hlen : (items.drop off.toNat).length = items.length - off.toNat := by
        simp [List.length_drop]
      have h₁ : (items.drop off.toNat).length ≤ ((items.length : Int) - off).toNat := by
        omega
      have h₂ : (items.drop off.toNat).length ≤ lim.toNat := by omega
      rw [List.take_of_length_le h₁, List.take_of_length_le h₂]
    · rw [if_neg hstop]
      have harith : off + lim - off = lim := by ring
      simp only []
      rw [harith]

/-- An item survives the filter loop exactly when every filter evaluates to
a match on it; the loop errors only if the evaluation of some item errors
before reporting false. -/
theorem applyFiltersLoop_ok_filter (filters : List Filter) (items l : List QItem)
    (h : applyFiltersLoop filters items = .ok l) :
    l = items.filter (fun it =>
      match matchesAllFilters it filters with
      | .ok true => true
      | _ => false) := by
  induction items generalizing l with
  | nil =>
    simp only [applyFiltersLoop] at h
    cases h
    simp
  | cons it rest ih =>
    simp only [applyFiltersLoop] at h
    cases hm : matchesAllFilters it filters with
    | error e => rw [hm] at h; cases h
    | ok b =>
      cases b with
      | true =>
        rw [hm] at h
        cases hrec : applyFiltersLoop filters rest with
        | error e => rw [hrec] at h; cases h
        | ok l₁ =>
          rw [hrec] at h
          cases h
          simp [List.filter, hm, ih _ hrec]
      | false =>
        rw [hm] at h
        simp [List.filter, hm, ih _ h]

/-- `applyFilters` success gives the AND-filtered sub-list. -/
theorem applyFilters_ok_filter (filters : List Filter) (items l : List QItem)
    (h : applyFilters items filters = .ok l) :
    l = items.filter (fun it =>
      match matchesAllFilters it filters with
      | .ok true => true
      | _ => false) := by
  unfold applyFilters at h
  by_cases he : filters.isEmpty
  · rw [if_pos he] at h
    cases h
    have : filters = [] := List.isEmpty_iff.mp he
    subst this
    simp [matchesAllFilters]
  · rw [if_neg he] at h
    exact applyFiltersLoop_ok_filter filters items l h

/-- C2: a successful query returns as `total` the number of records of the
target family for which every filter matches, as `results` exactly the
contiguous sub-slice `[offset, offset+limit)` of the sorted filtered
sequence — a non-positive limit replaced by 100, a negative offset by 0 —
and as `limit` and `offset` the defaults actually used. -/
theorem c2_query_semantics (g : Graph) (input : QueryInput) (out : QueryOutput)
    (h : query g input = .ok out) :
    ∃ cands filtered,
      ((input.targetType = "entity" ∧ cands = g.entities.map (fun p => QItem.ent p.2)) ∨
       (input.targetType = "relation" ∧ cands = g.relations.map (fun p => QItem.rel p.2))) ∧
      applyFilters cands input.filters = .ok filtered ∧
      filtered = cands.filter (fun it =>
        match matchesAllFilters it input.filters with
        | .ok true => true
        | _ => false) ∧
      out.total = filtered.length ∧
      out.results =
        ((if input.sortBy = "" then filtered
          else applySorting filtered input.sortBy input.sortOrder).drop
            (if input.offset < 0 then 0 else input.offset).toNat).take
          (if input.limit ≤ 0 then 100 else input.limit).toNat ∧
      out.limit = (if input.limit ≤ 0 then 100 else input.limit) ∧
      out.offset = (if input.offset < 0 then 0 else input.offset) := by
  unfold query at h
  by_cases hte : input.targetType = "entity"
  · rw [if_pos hte] at h
    simp only at h
    cases hf : applyFilters (g.entities.map fun p => QItem.ent p.2) input.filters with
    | error e => rw [hf] at h; cases h
    | ok filtered =>
      rw [hf] at h
      cases h
      exact ⟨_, filtered, Or.inl ⟨hte, rfl⟩, hf, applyFilters_ok_filter _ _ _ hf,
        rfl, applyPagination_eq_drop_take _ _ _, rfl, rfl⟩
  · by_cases htr : input.targetType = "relation"
    · rw [if_neg hte, if_pos htr] at h
      simp only at h
      cases hf : applyFilters (g.relations.map fun p => QItem.rel p.2) input.filters with
      | error e => rw [hf] at h; cases h
      | ok filtered =>
        rw [hf] at h
        cases h
        exact ⟨_, filtered, Or.inr ⟨htr, rfl⟩, hf, applyFilters_ok_filter _ _ _ hf,
          rfl, applyPagination_eq_drop_take _ _ _, rfl, rfl⟩
    · rw [if_neg hte, if_neg htr] at h
      simp only at h
      cases h

/-- C2 witness: the query of the specification's test section — Person
entities in New York sorted by age descending, limit 1, offset 1 — applied
to the theorem; the hypotheses evaluate by computation. -/
theorem c2_query_semantics_witness :
    ∃ cands filtered,
      (("entity" = "entity" ∧ cands = exQueryGraph.entities.map (fun p => QItem.ent p.2)) ∨
       ("entity" = "relation" ∧ cands = exQueryGraph.relations.map (fun p => QItem.rel p.2))) ∧
      applyFilters cands [⟨"type", "eq", .str "Person"⟩, ⟨"metadata.city", "eq", .str "New York"⟩] = .ok filtered ∧
      filtered = cands.filter (fun it =>
        match matchesAllFilters it [⟨"type", "eq", .str "Person"⟩, ⟨"metadata.city", "eq", .str "New York"⟩] with
        | .ok true => true
        | _ => false) ∧
      (2 : Int) = filtered.length ∧
      [QItem.ent ⟨"e1", "Person", "A", "", some [("city", JVal.str "New York"), ("age", JVal.num 30)]⟩] =
        ((if ("metadata.age" : String) = "" then filtered
          else applySorting filtered "metadata.age" "desc").drop
            (if (1 : Int) < 0 then 0 else (1 : Int)).toNat).take
          (if (1 : Int) ≤ 0 then 100 else (1 : Int)).toNat ∧
      (1 : Int) = (if (1 : Int) ≤ 0 then 100 else (1 : Int)) ∧
      (1 : Int) = (if (1 : Int) < 0 then 0 else (1 : Int)) :=
  c2_query_semantics exQueryGraph
    ⟨[⟨"type", "eq", .str "Person"⟩, ⟨"metadata.city", "eq", .str "New York"⟩],
      "metadata.age", "desc", 1, 1, "entity"⟩
    ⟨[QItem.ent ⟨"e1", "Person", "A", "", some [("city", JVal.str "New York"), ("age", JVal.num 30)]⟩],
      2, 1, 1⟩ rfl

/-- C6 counterexample: on an entity whose metadata map has no key `x`,
extraction errors; the claim's nil-handling rule would make `eq` against a
null filter value match (`.ok true`) and `neq` against a non-null value
match — but filter evaluation returns a non-match (`.ok false`) for both.
The nil-handling block applies only to a key that is present with a null
value. -/
theorem c6_missing_key_counterexample :
    extractValue (.ent exEmptyMetaEnt) "metadata.x" = .error (.notFound "x") ∧
    matchesFilter (.ent exEmptyMetaEnt) ⟨"metadata.x", "eq", JVal.null⟩ = .ok false ∧
    matchesFilter (.ent exEmptyMetaEnt) ⟨"metadata.x", "eq", JVal.null⟩ ≠ .ok true ∧
    matchesFilter (.ent exEmptyMetaEnt) ⟨"metadata.x", "neq", JVal.num 3⟩ = .ok false ∧
    matchesFilter (.ent exEmptyMetaEnt) ⟨"metadata.x", "neq", JVal.num 3⟩ ≠ .ok true := by
  refine ⟨rfl, rfl, ?_, rfl, ?_⟩
  · intro hcontra
    rw [show matchesFilter (.ent exEmptyMetaEnt) ⟨"metadata.x", "eq", JVal.null⟩ =
        Except.ok false from rfl] at hcontra
    exact Bool.false_ne_true (Except.ok.inj hcontra)
  · intro hcontra
    rw [show matchesFilter (.ent exEmptyMetaEnt) ⟨"metadata.x", "neq", JVal.num 3⟩ =
        Except.ok false from rfl] at hcontra
    exact Bool.false_ne_true (Except.ok.inj hcontra)

/-- C6 amended: for every record and filter on a `metadata.`-prefixed field
whose extraction fails (in particular a key missing from the metadata map),
evaluation reports a non-match — `.ok false` — for every operator, without
error; the nil-handling rule applies only when the key is present with a
null value. -/
theorem c6_missing_metadata_key_non_match (item : QItem) (f : Filter)
    (hmeta : hasMetaDot f.field = true)
    (hmiss : ∃ e, extractValue item f.field = .error e) :
    matchesFilter item f = .ok false := by
  obtain ⟨e, he⟩ := hmiss
  unfold matchesFilter
  rw [he]
  simp [hmeta]

/-- C6 witness: the amended theorem applied to the missing key `x` with an
ordering operator. -/
theorem c6_missing_metadata_key_non_match_witness :
    matchesFilter (.ent exEmptyMetaEnt) ⟨"metadata.x", "gt", JVal.num 3⟩ = .ok false :=
  c6_missing_metadata_key_non_match (.ent exEmptyMetaEnt)
    ⟨"metadata.x", "gt", JVal.num 3⟩ rfl ⟨.notFound "x", rfl⟩

/-- A lookup hit is a member of the table. -/
theorem alookup_mem {β : Type} {k : String} {l : List (String × β)} {v : β}
    (h : alookup k l = some v) : (k, v) ∈ l := by
  induction l with
  | nil => simp [alookup] at h
  | cons p rest ih =>
    obtain ⟨k₁, v₁⟩ := p
    by_cases hk : k₁ = k
    · subst hk
      simp only [alookup, if_pos rfl] at h
      cases h
      exact List.mem_cons_self _ _
    · simp only [alookup, if_neg hk] at h
      exact List.mem_cons_of_mem _ (ih h)

/-- In a well-formed graph an entity looked up by key carries that key as
its id. -/
theorem wf_entity_id {g : Graph} (hwf : g.WF) {k : String} {e : Entity}
    (h : alookup k g.entities = some e) : e.id = k :=
  hwf.2.1 (k, e) (alookup_mem h)

/-- A relation delivered by `GetRelationsFrom` starts at the requested id. -/
theorem relationsFrom_source {g : Graph} {id : String} {r : Relation}
    (h : r ∈ relationsFrom g id) : r.source = id := by
  unfold relationsFrom at h
  obtain ⟨p, hp, hr⟩ := List.mem_map.mp h
  cases hr
  exact of_decide_eq_true (List.mem_filter.mp hp).2

/-- Appending a relation and its target entity to a well-linked path ending
at the relation's source keeps it well-linked. -/
theorem chainedB_append : ∀ (p : GPath) (e : Entity) (r : Relation) (nb : Entity),
    chainedB p = true → p.getLast? = some (.pe e) → r.source = e.id →
    r.target = nb.id → chainedB (p ++ [.pr r, .pe nb]) = true
  | [], _, _, _, hc, _, _, _ => by simp [chainedB] at hc
  | [.pe x], e, r, nb, hc, hl, hs, ht => by
    simp only [List.getLast?_singleton, Option.some.injEq] at hl
    injection hl with hxe
    subst hxe
    simp [chainedB, hs, ht]
  | .pe x :: .pe y :: t, _, _, _, hc, _, _, _ => by simp [chainedB] at hc
  | .pr z :: t, _, _, _, hc, _, _, _ => by simp [chainedB] at hc
  | [.pe x, .pr r₀], _, _, _, hc, _, _, _ => by simp [chainedB] at hc
  | .pe x :: .pr r₀ :: .pr r₁ :: t, _, _, _, hc, _, _, _ => by simp [chainedB] at hc
  | .pe x :: .pr r₀ :: .pe e₁ :: t, e, r, nb, hc, hl, hs, ht => by
    simp only [chainedB, Bool.and_eq_true, decide_eq_true_eq] at hc
    have hrec := chainedB_append (.pe e₁ :: t) e r nb hc.2.2
      (by simpa using hl) hs ht
    simp only [List.cons_append] at hrec ⊢
    simp [chainedB, hc.1, hc.2.1]
    simpa [chainedB] using hrec

/-- A well-linked path has odd length: one more entity than relations. -/
theorem chainedB_length : ∀ (p : GPath), chainedB p = true →
    p.length = 2 * pathRelCount p + 1
  | [], hc => by simp [chainedB] at hc
  | [.pe x], _ => by simp [pathRelCount, List.countP_cons]
  | .pe x :: .pe y :: t, hc => by simp [chainedB] at hc
  | .pr z :: t, hc => by simp [chainedB] at hc
  | [.pe x, .pr r₀], hc => by simp [chainedB] at hc
  | .pe x :: .pr r₀ :: .pr r₁ :: t, hc => by simp [chainedB] at hc
  | .pe x :: .pr r₀ :: .pe e₁ :: t, hc => by
    simp only [chainedB, Bool.and_eq_true, decide_eq_true_eq] at hc
    have hrec := chainedB_length (.pe e₁ :: t) hc.2.2
    simp [pathRelCount, List.countP_cons] at hrec ⊢
    omega

/-- The entity ids of a path extended by one relation step. -/
theorem pathEntityIds_append (p : GPath) (r : Relation) (nb : Entity) :
    pathEntityIds (p ++ [.pr r, .pe nb]) = pathEntityIds p ++ [nb.id] := by
  simp [pathEntityIds]

/-- The relation count of a path extended by one relation step. -/
theorem pathRelCount_append (p : GPath) (r : Relation) (nb : Entity) :
    pathRelCount (p ++ [.pr r, .pe nb]) = pathRelCount p + 1 := by
  simp [pathRelCount, List.countP_cons]

/-- Characterization of a successful `extendWork`: the target entity
exists, is not yet on the path, and the result is the two-element
extension. -/
theorem extendWork_some {g : Graph} {f : Option (PElem → Nat → Bool)}
    {w : PathWork} {rel : Relation} {w₁ : PathWork}
    (h : extendWork g f w rel = some w₁) :
    ∃ nb, alookup rel.target g.entities = some nb ∧ nb.id ∉ w.visited ∧
      w₁ = ⟨w.path ++ [.pr rel, .pe nb], nb, w.visited ++ [nb.id]⟩ := by
  unfold extendWork at h
  cases hnb : alookup rel.target g.entities with
  | none => simp [hnb] at h
  | some nb =>
    simp only [hnb] at h
    by_cases hvis : w.visited.contains nb.id
    · rw [if_pos hvis] at h
      exact Option.noConfusion h
    · rw [if_neg hvis] at h
      split at h
      · injection h with h
        exact ⟨nb, rfl, by simpa using hvis, h.symm⟩
      · exact Option.noConfusion h

/-- An extension produced by the neighbor scan of `findPathsLoop` keeps the
work-item invariant and the length bound. -/
theorem extension_WInv {g : Graph} (hwf : g.WF) {w : PathWork} {L : Int}
    (hw : WInv g w) (hcap : 0 ≤ L → (pathRelCount w.path : Int) < L ∨ ¬ 0 ≤ L)
    {rel : Relation} {nb : Entity} (hrel : rel ∈ relationsFrom g w.last.id)
    (hnb : alookup rel.target g.entities = some nb) (hvis : nb.id ∉ w.visited) :
    WInv g ⟨w.path ++ [.pr rel, .pe nb], nb, w.visited ++ [nb.id]⟩ ∧
    (0 ≤ L → (pathRelCount (w.path ++ [.pr rel, .pe nb]) : Int) ≤ L) := by
  obtain ⟨hch, hlast, hids, hnd, hlook⟩ := hw
  have hsrc : rel.source = w.last.id := relationsFrom_source hrel
  have htgt : rel.target = nb.id := (wf_entity_id hwf hnb).symm
  have hnb' : alookup nb.id g.entities = some nb := htgt ▸ hnb
  refine ⟨⟨chainedB_append w.path w.last rel nb hch hlast hsrc htgt, ?_, ?_, ?_, hnb'⟩, ?_⟩
  · simp
  · rw [pathEntityIds_append, hids]
  · simp [List.nodup_append, hnd, hvis]
  · intro hL
    rw [pathRelCount_append]
    rcases hcap hL with hlt | habs
    · push_cast
      omega
    · exact absurd hL habs

/-- Soundness of the `FindPaths` worklist: if every pending work item
satisfies the invariant and the bound, and every already-emitted path has
the claimed properties, then so does every path the loop returns — at any
fuel. -/
theorem findPathsLoop_sound (g : Graph) (hwf : g.WF) (t : String) (L : Int)
    (f : Option (PElem → Nat → Bool)) :
    ∀ (fuel : Nat) (work : List PathWork) (acc : List GPath),
    (∀ w ∈ work, WInv g w ∧ (0 ≤ L → (pathRelCount w.path : Int) ≤ L)) →
    (∀ p ∈ acc, PathProps g L p) →
    ∀ p ∈ findPathsLoop g t L f fuel work acc, PathProps g L p := by
  intro fuel
  induction fuel with
  | zero =>
    intro work acc hwork hacc p hp
    cases work with
    | nil => simp only [findPathsLoop] at hp; exact hacc p hp
    | cons w rest => simp only [findPathsLoop] at hp; exact hacc p hp
  | succ fuel ih =>
    intro work acc hwork hacc p hp
    cases work with
    | nil => simp only [findPathsLoop] at hp; exact hacc p hp
    | cons w rest =>
      simp only [findPathsLoop] at hp
      obtain ⟨⟨hch, hlast, hids, hnd, hlook⟩, hcap⟩ := hwork w (List.mem_cons_self _ _)
      by_cases hend : w.last.id = t
      · rw [if_pos hend] at hp
        refine ih rest _ (fun w₁ hw₁ => hwork w₁ (List.mem_cons_of_mem _ hw₁)) ?_ p hp
        intro q hq
        rcases List.mem_append.mp hq with hq | hq
        · exact hacc q hq
        · rw [List.mem_singleton.mp hq]
          exact ⟨hch, hids ▸ hnd, hcap, w.last, hlast, hlook⟩
      · rw [if_neg hend] at hp
        by_cases hover : L ≥ 0 ∧ ((w.path.length / 2 : Nat) : Int) ≥ L
        · rw [if_pos hover] at hp
          exact ih rest acc (fun w₁ hw₁ => hwork w₁ (List.mem_cons_of_mem _ hw₁)) hacc p hp
        · rw [if_neg hover] at hp
          refine ih _ acc ?_ hacc p hp
          intro w₁ hw₁
          rcases List.mem_append.mp hw₁ with hw₁ | hw₁
          · exact hwork w₁ (List.mem_cons_of_mem _ hw₁)
          · obtain ⟨rel, hrel, hmk⟩ := List.mem_filterMap.mp hw₁
            obtain ⟨nb, hnbv, hvis, hweq⟩ := extendWork_some hmk
            subst hweq
            have hlen : w.path.length = 2 * pathRelCount w.path + 1 :=
              chainedB_length w.path hch
            have hcap' : 0 ≤ L → (pathRelCount w.path : Int) < L ∨ ¬ 0 ≤ L := by
              intro hL
              left
              have hhalf : w.path.length / 2 = pathRelCount w.path := by omega
              rcases not_and_or.mp hover with hneg | hlt
              · exact absurd hL hneg
              · rw [hhalf] at hlt
                omega
            exact extension_WInv hwf ⟨hch, hlast, hids, hnd, hlook⟩ hcap' hrel hnbv hvis

/-- When the end id names no entity, the worklist emits nothing: every
pending item ends at a stored entity, so its id can never equal the missing
end id. -/
theorem findPathsLoop_no_end (g : Graph) (hwf : g.WF) (t : String) (L : Int)
    (f : Option (PElem → Nat → Bool)) (hmiss : alookup t g.entities = none) :
    ∀ (fuel : Nat) (work : List PathWork) (acc : List GPath),
    (∀ w ∈ work, alookup w.last.id g.entities = some w.last) →
    findPathsLoop g t L f fuel work acc = acc := by
  intro fuel
  induction fuel with
  | zero =>
    intro work acc hwork
    cases work <;> simp [findPathsLoop]
  | succ fuel ih =>
    intro work acc hwork
    cases work with
    | nil => simp [findPathsLoop]
    | cons w rest =>
      have hlook := hwork w (List.mem_cons_self _ _)
      have hend : w.last.id ≠ t := by
        intro he
        rw [he] at hlook
        rw [hmiss] at hlook
        cases hlook
      simp only [findPathsLoop, if_neg hend]
      by_cases hover : L ≥ 0 ∧ ((w.path.length / 2 : Nat) : Int) ≥ L
      · rw [if_pos hover]
        exact ih rest acc (fun w₁ hw₁ => hwork w₁ (List.mem_cons_of_mem _ hw₁))
      · rw [if_neg hover]
        refine ih _ acc ?_
        intro w₁ hw₁
        rcases List.mem_append.mp hw₁ with hw₁ | hw₁
        · exact hwork w₁ (List.mem_cons_of_mem _ hw₁)
        · obtain ⟨rel, hrel, hmk⟩ := List.mem_filterMap.mp hw₁
          obtain ⟨nb, hnbv, hvis, hweq⟩ := extendWork_some hmk
          subst hweq
          have hid : nb.id = rel.target := wf_entity_id hwf hnbv
          simp only []
          rw [hid]
          exact hnbv

/-- C4 counterexample: with `max_length = -2` — negative but distinct from
`-1` — the path search still returns paths, here one with a single relation,
although the claim allows more than `L` relations only when `L = -1`.  The
guard in the source treats every negative bound as unbounded. -/
theorem c4_max_length_counterexample :
    findPaths exGraph "A" "B" (-2) none 100 =
      .ok [[.pe (exEnt "A" "Person" none), .pr (exRel "r1" "A" "B"),
            .pe (exEnt "B" "Person" none)],
           [.pe (exEnt "A" "Person" none), .pr (exRel "r2" "A" "C"),
            .pe (exEnt "C" "Person" none), .pr (exRel "r4" "C" "B"),
            .pe (exEnt "B" "Person" none)]] ∧
    pathRelCount [PElem.pe (exEnt "A" "Person" none), .pr (exRel "r1" "A" "B"),
      .pe (exEnt "B" "Person" none)] = 1 ∧
    ¬ ((1 : Int) ≤ -2) ∧ (-2 : Int) ≠ -1 :=
  ⟨rfl, rfl, by decide, by decide⟩

/-- C4 amended: find-paths errors exactly when the start id names no
entity; a non-existent end id yields the empty path list; and every
returned path is a well-linked alternating entity/relation sequence whose
entity ids are pairwise distinct, following outgoing relations only, with
at most `L` relations whenever `L` is non-negative (every negative `L`
means unbounded).  All of this holds at every fuel. -/
theorem c4_find_paths_properties (g : Graph) (s t : String) (L : Int)
    (f : Option (PElem → Nat → Bool)) (fuel : Nat) (hwf : g.WF) :
    ((∃ e, findPaths g s t L f fuel = .error e) ↔ alookup s g.entities = none) ∧
    (alookup t g.entities = none →
      ∀ paths, findPaths g s t L f fuel = .ok paths → paths = []) ∧
    (∀ paths, findPaths g s t L f fuel = .ok paths →
      ∀ p ∈ paths, chainedB p = true ∧ (pathEntityIds p).Nodup ∧
        (0 ≤ L → (pathRelCount p : Int) ≤ L)) := by
  cases hs : alookup s g.entities with
  | none =>
    refine ⟨⟨fun _ => rfl, fun _ => ⟨.notFound s, by simp [findPaths, hs]⟩⟩, ?_, ?_⟩
    · intro _ paths hok
      rw [show findPaths g s t L f fuel = .error (.notFound s) by simp [findPaths, hs]] at hok
      cases hok
    · intro paths hok
      rw [show findPaths g s t L f fuel = .error (.notFound s) by simp [findPaths, hs]] at hok
      cases hok
  | some startNode =>
    have hid : startNode.id = s := wf_entity_id hwf hs
    have hshape : findPaths g s t L f fuel = .ok [] ∨
        findPaths g s t L f fuel =
          .ok (findPathsLoop g t L f fuel [⟨[.pe startNode], startNode, [s]⟩] []) := by
      unfold findPaths
      rw [hs]
      simp only []
      split
      · exact Or.inl rfl
      · exact Or.inr rfl
    constructor
    · constructor
      · intro he
        obtain ⟨e, he⟩ := he
        rcases hshape with hsh | hsh <;> rw [hsh] at he <;> cases he
      · intro habs
        exact absurd habs (by simp [hs])
    constructor
    · intro hmiss paths hok
      rcases hshape with hsh | hsh
      · rw [hsh] at hok
        cases hok
        rfl
      · rw [hsh] at hok
        cases hok
        refine findPathsLoop_no_end g hwf t L f hmiss fuel _ [] ?_
        intro w hw
        rw [List.mem_singleton.mp hw]
        simpa [hid] using hs
    · intro paths hok p hp
      rcases hshape with hsh | hsh
      · rw [hsh] at hok
        cases hok
        cases hp
      · rw [hsh] at hok
        cases hok
        have hmain := findPathsLoop_sound g hwf t L f fuel
          [⟨[.pe startNode], startNode, [s]⟩] [] ?_ (by intro q hq; cases hq) p hp
        · exact ⟨hmain.1, hmain.2.1, hmain.2.2.1⟩
        · intro w hw
          rw [List.mem_singleton.mp hw]
          refine ⟨⟨rfl, rfl, ?_, ?_, ?_⟩, ?_⟩
          · simp [pathEntityIds, hid]
          · simp
          · simpa [hid] using hs
          · intro hL
            simpa [pathRelCount, List.countP_cons] using hL

/-- C4 witness: the amended theorem at the example graph, searching from
`A` to `CityA` unbounded. -/
theorem c4_find_paths_properties_witness :
    ((∃ e, findPaths exGraph "A" "CityA" (-1) none 1000 = .error e) ↔
      alookup "A" exGraph.entities = none) ∧
    (alookup "CityA" exGraph.entities = none →
      ∀ paths, findPaths exGraph "A" "CityA" (-1) none 1000 = .ok paths → paths = []) ∧
    (∀ paths, findPaths exGraph "A" "CityA" (-1) none 1000 = .ok paths →
      ∀ p ∈ paths, chainedB p = true ∧ (pathEntityIds p).Nodup ∧
        (0 ≤ (-1 : Int) → (pathRelCount p : Int) ≤ -1)) :=
  c4_find_paths_properties exGraph "A" "CityA" (-1) none 1000 (by decide)

/-- With depth limit zero the BFS queue loop expands nothing: every next
depth is positive, so each step only pops. -/
theorem bfsLoop_radius_zero (g : Graph) (relPred : Relation → Bool)
    (visitPred : Entity → Nat → Bool) :
    ∀ (fuel : Nat) (q v : List (Entity × Nat)),
    bfsLoop g relPred visitPred 0 fuel q v = v := by
  intro fuel
  induction fuel with
  | zero => intro q v; cases q <;> simp [bfsLoop]
  | succ fuel ih =>
    intro q v
    cases q with
    | nil => simp [bfsLoop]
    | cons item rest =>
      obtain ⟨cur, depth⟩ := item
      have hcond : (0 : Int) ≥ 0 ∧ ((depth : Int) + 1 : Int) > 0 := by
        constructor
        · omega
        · have : (0 : Int) ≤ (depth : Int) := Int.natCast_nonneg depth
          omega
      simp only [bfsLoop]
      rw [if_pos hcond]
      exact ih rest v

/-- Characterization of the BFS start loop when every start id exists and
the visit predicate accepts everything at depth zero: it succeeds, its
visited list extends the incoming one with start entities at depth zero,
and every start id is represented. -/
theorem bfsInit_zero_props (g : Graph) (hwf : g.WF)
    (visitPred : Entity → Nat → Bool) (hvp : ∀ e, visitPred e 0 = true) :
    ∀ (sids : List String) (q v : List (Entity × Nat)),
    (∀ sid ∈ sids, (alookup sid g.entities).isSome) →
    ∃ q₁ v₁, bfsInit g visitPred sids q v = .ok (q₁, v₁) ∧
      (∀ p ∈ v₁, p ∈ v ∨ (p.2 = 0 ∧ ∃ sid ∈ sids, alookup sid g.entities = some p.1)) ∧
      (∀ sid ∈ sids, ∃ p ∈ v₁, p.1.id = sid) ∧
      (∀ p ∈ v, p ∈ v₁) := by
  intro sids
  induction sids with
  | nil =>
    intro q v hex
    exact ⟨q, v, rfl, fun p hp => Or.inl hp, by simp, fun p hp => hp⟩
  | cons sid rest ih =>
    intro q v hex
    by_cases hvis : v.any (fun p => p.1.id = sid)
    · obtain ⟨q₁, v₁, hrun, hmem, hall, hsub⟩ :=
        ih q v (fun s hs => hex s (List.mem_cons_of_mem _ hs))
      refine ⟨q₁, v₁, ?_, ?_, ?_, hsub⟩
      · simp only [bfsInit, if_pos hvis]
        exact hrun
      · intro p hp
        rcases hmem p hp with hl | ⟨hd, s, hsm, hlook⟩
        · exact Or.inl hl
        · exact Or.inr ⟨hd, s, List.mem_cons_of_mem _ hsm, hlook⟩
      · intro s hs
        rcases List.mem_cons.mp hs with hseq | hsr
        · subst hseq
          obtain ⟨p, hpv, hpid⟩ := List.any_eq_true.mp hvis
          exact ⟨p, hsub p hpv, of_decide_eq_true hpid⟩
        · exact hall s hsr
    · obtain ⟨e, he⟩ := Option.isSome_iff_exists.mp (hex sid (List.mem_cons_self _ _))
      obtain ⟨q₁, v₁, hrun, hmem, hall, hsub⟩ :=
        ih (q ++ [(e, 0)]) (v ++ [(e, 0)])
          (fun s hs => hex s (List.mem_cons_of_mem _ hs))
      refine ⟨q₁, v₁, ?_, ?_, ?_, ?_⟩
      · simp only [bfsInit, if_neg hvis, he, hvp e, if_pos]
        exact hrun
      · intro p hp
        rcases hmem p hp with hl | ⟨hd, s, hsm, hlook⟩
        · rcases List.mem_append.mp hl with hl | hl
          · exact Or.inl hl
          · rw [List.mem_singleton.mp hl]
            exact Or.inr ⟨rfl, sid, List.mem_cons_self _ _, he⟩
        · exact Or.inr ⟨hd, s, List.mem_cons_of_mem _ hsm, hlook⟩
      · intro s hs
        rcases List.mem_cons.mp hs with hseq | hsr
        · subst hseq
          refine ⟨(e, 0), hsub (e, 0) (by simp), wf_entity_id hwf he⟩
        · exact hall s hsr
      · intro p hp
        exact hsub p (List.mem_append_left _ hp)

/-- C7 counterexample: radius 0 from the start set `[A, B]`, which carries
no self-loop, still returns the relation `r1` from `A` to `B`: both of its
endpoints are distinct start nodes, so the endpoints-in-set test admits it
and the relation list is not empty as the claim demands. -/
theorem c7_radius_zero_counterexample :
    extractSubgraph exGraph ["A", "B"] 0 none none =
      .ok ⟨[exEnt "A" "Person" none, exEnt "B" "Person" none],
           [("r1", exRel "r1" "A" "B")]⟩ ∧
    (exRel "r1" "A" "B").source ≠ (exRel "r1" "A" "B").target :=
  ⟨rfl, by decide⟩

/-- C7 amended: subgraph extraction errors on a negative radius; with
radius 0, no node filter, the default relation filter, every start id
naming an existing entity, and no relation having both endpoints among the
start ids, the result is exactly the start nodes with zero relations; and
in general the returned relation set is precisely the relations of the
graph passing the relation filter over the collected entity-id set — by
default the test that both endpoints lie in that set. -/
theorem c7_subgraph_extraction :
    (∀ (g : Graph) (S : List String) (radius : Int)
      (nv : Option (Entity → Nat → Bool)) (rf : Option (Relation → List String → Bool)),
      radius < 0 → extractSubgraph g S radius nv rf = .error (.badArgument "radius")) ∧
    (∀ (g : Graph) (S : List String), g.WF →
      (∀ sid ∈ S, (alookup sid g.entities).isSome) →
      (∀ p ∈ g.relations, ¬(p.2.source ∈ S ∧ p.2.target ∈ S)) →
      ∃ res, extractSubgraph g S 0 none none = .ok res ∧
        (∀ e ∈ res.entities, e.id ∈ S ∧ alookup e.id g.entities = some e) ∧
        (∀ sid ∈ S, ∃ e ∈ res.entities, e.id = sid) ∧
        res.relations = []) ∧
    (∀ (g : Graph) (S : List String) (radius : Int)
      (nv : Option (Entity → Nat → Bool)) (rf : Option (Relation → List String → Bool))
      (res : SubgraphResult),
      extractSubgraph g S radius nv rf = .ok res →
      res.relations = g.relations.filter (fun p =>
        match rf with
        | none => (res.entities.map Entity.id).contains p.2.source &&
            (res.entities.map Entity.id).contains p.2.target
        | some fr => fr p.2 (res.entities.map Entity.id))) := by
  refine ⟨?_, ?_, ?_⟩
  · intro g S radius nv rf hneg
    simp [extractSubgraph, hneg]
  · intro g S hwf hex hnorel
    have hvp : ∀ e : Entity, ((true : Bool) && decide ((0 : Nat) ≤ (0 : Int))) = true := by
      intro e; decide
    obtain ⟨q₁, v₁, hrun, hmem, hall, hsub⟩ :=
      bfsInit_zero_props g hwf
        (fun e depth => (true : Bool) && decide ((depth : Int) ≤ 0))
        (fun e => by simp) S [] [] hex
    have hids : ∀ p ∈ v₁, p.1.id ∈ S ∧ alookup p.1.id g.entities = some p.1 := by
      intro p hp
      rcases hmem p hp with hl | ⟨hd, sid, hsm, hlook⟩
      · cases hl
      · have : p.1.id = sid := wf_entity_id hwf hlook
        rw [this]
        exact ⟨hsm, hlook⟩
    refine ⟨⟨v₁.map Prod.fst, []⟩, ?_, ?_, ?_, rfl⟩
    · unfold extractSubgraph
      rw [if_neg (by omega : ¬ (0 : Int) < 0)]
      simp only [bfs, hrun, bfsLoop_radius_zero]
      have hfilter : g.relations.filter (fun p =>
          (v₁.map (fun q => q.1.id)).contains p.2.source &&
          (v₁.map (fun q => q.1.id)).contains p.2.target) = [] := by
        rw [List.filter_eq_nil_iff]
        intro p hp
        intro hcontra
        obtain ⟨hsrc, htgt⟩ := Bool.and_eq_true_iff.mp hcontra
        obtain ⟨ps, hps, hpss⟩ := List.mem_map.mp (List.mem_of_elem_eq_true hsrc)
        obtain ⟨pt, hpt, hptt⟩ := List.mem_map.mp (List.mem_of_elem_eq_true htgt)
        exact hnorel p hp ⟨hpss ▸ (hids ps hps).1, hptt ▸ (hids pt hpt).1⟩
      simp only [hfilter]
    · intro e he
      obtain ⟨p, hp, hpe⟩ := List.mem_map.mp he
      cases hpe
      exact hids p hp
    · intro sid hsid
      obtain ⟨p, hpv, hpid⟩ := hall sid hsid
      exact ⟨p.1, List.mem_map.mpr ⟨p, hpv, rfl⟩, hpid⟩
  · intro g S radius nv rf res h
    unfold extractSubgraph at h
    by_cases hneg : radius < 0
    · rw [if_pos hneg] at h; cases h
    · rw [if_neg hneg] at h
      simp only [] at h
      split at h
      · cases h
      · injection h with h
        subst h
        cases rf with
        | none => simp [List.map_map, Function.comp_def]
        | some fr => simp [List.map_map, Function.comp_def]

/-- C7 witness: the amended theorem's radius-0 clause at a start set with
no relations among its members, and the general relation clause at the
example graph with radius 1. -/
theorem c7_subgraph_extraction_witness :
    (∃ res, extractSubgraph exGraph ["B", "CityA"] 0 none none = .ok res ∧
      (∀ e ∈ res.entities, e.id ∈ ["B", "CityA"] ∧
        alookup e.id exGraph.entities = some e) ∧
      (∀ sid ∈ ["B", "CityA"], ∃ e ∈ res.entities, e.id = sid) ∧
      res.relations = []) ∧
    (∀ res : SubgraphResult, extractSubgraph exGraph ["A"] 1 none none = .ok res →
      res.relations = exGraph.relations.filter (fun p =>
        (res.entities.map Entity.id).contains p.2.source &&
        (res.entities.map Entity.id).contains p.2.target)) :=
  ⟨c7_subgraph_extraction.2.1 exGraph ["B", "CityA"] (by decide) (by decide) (by decide),
   fun res h => c7_subgraph_extraction.2.2 exGraph ["A"] 1 none none res h⟩

/-- The deduplication fold never loses accumulator elements. -/
theorem dedup_fold_mono : ∀ (l acc : List Entity) (x : Entity), x ∈ acc →
    x ∈ l.foldl (fun a e => if a.any (fun y => y.id = e.id) then a else a ++ [e]) acc := by
  intro l
  induction l with
  | nil => intro acc x hx; simpa using hx
  | cons e rest ih =>
    intro acc x hx
    simp only [List.foldl_cons]
    by_cases hc : acc.any (fun y => y.id = e.id)
    · rw [if_pos hc]; exact ih acc x hx
    · rw [if_neg hc]; exact ih _ x (List.mem_append_left _ hx)

/-- Everything the deduplication fold returns came from the accumulator or
the input list. -/
theorem dedup_fold_subset : ∀ (l acc : List Entity) (x : Entity),
    x ∈ l.foldl (fun a e => if a.any (fun y => y.id = e.id) then a else a ++ [e]) acc →
    x ∈ acc ∨ x ∈ l := by
  intro l
  induction l with
  | nil => intro acc x hx; exact Or.inl (by simpa using hx)
  | cons e rest ih =>
    intro acc x hx
    simp only [List.foldl_cons] at hx
    by_cases hc : acc.any (fun y => y.id = e.id)
    · rw [if_pos hc] at hx
      rcases ih acc x hx with h | h
      · exact Or.inl h
      · exact Or.inr (List.mem_cons_of_mem _ h)
    · rw [if_neg hc] at hx
      rcases ih _ x hx with h | h
      · rcases List.mem_append.mp h with h | h
        · exact Or.inl h
        · rw [List.mem_singleton.mp h]
          exact Or.inr (List.mem_cons_self _ _)
      · exact Or.inr (List.mem_cons_of_mem _ h)

/-- Every id present in the accumulator or the input list is represented in
the fold's result. -/
theorem dedup_fold_covers : ∀ (l acc : List Entity) (x : Entity),
    (x ∈ acc ∨ x ∈ l) →
    ∃ y ∈ l.foldl (fun a e => if a.any (fun y => y.id = e.id) then a else a ++ [e]) acc,
      y.id = x.id := by
  intro l
  induction l with
  | nil =>
    intro acc x hx
    rcases hx with hx | hx
    · exact ⟨x, by simpa using hx, rfl⟩
    · cases hx
  | cons e rest ih =>
    intro acc x hx
    simp only [List.foldl_cons]
    by_cases hc : acc.any (fun y => y.id = e.id)
    · rw [if_pos hc]
      rcases hx with hx | hx
      · exact ih acc x (Or.inl hx)
      · rcases List.mem_cons.mp hx with hx | hx
        · subst hx
          obtain ⟨y, hy, hyid⟩ := List.any_eq_true.mp hc
          obtain ⟨z, hz, hzid⟩ := ih acc y (Or.inl hy)
          exact ⟨z, hz, hzid.trans (of_decide_eq_true hyid)⟩
        · exact ih acc x (Or.inr hx)
    · rw [if_neg hc]
      rcases hx with hx | hx
      · exact ih _ x (Or.inl (List.mem_append_left _ hx))
      · rcases List.mem_cons.mp hx with hx | hx
        · subst hx
          exact ih _ x (Or.inl (List.mem_append_right _ (List.mem_singleton_self _)))
        · exact ih _ x (Or.inr hx)

/-- When any two listed entities sharing an id are equal, deduplication by
id does not change membership. -/
theorem mem_dedupById_iff (l : List Entity)
    (huniq : ∀ x ∈ l, ∀ y ∈ l, x.id = y.id → x = y) (b : Entity) :
    b ∈ dedupById l ↔ b ∈ l := by
  constructor
  · intro hb
    rcases dedup_fold_subset l [] b hb with h | h
    · cases h
    · exact h
  · intro hb
    obtain ⟨y, hy, hyid⟩ := dedup_fold_covers l [] b (Or.inr hb)
    have hyl : y ∈ l := by
      rcases dedup_fold_subset l [] y hy with h | h
      · cases h
      · exact h
    rw [huniq y hyl b hb hyid] at hy
    exact hy

/-- Membership in a neighbor-candidate scan: the relation passes the
predicate, has the requested endpoint, and its other endpoint resolves to
the entity. -/
theorem mem_nbrScan_iff (g : Graph) (cond : Relation → Prop)
    [DecidablePred cond] (key : Relation → String) (b : Entity) :
    (b ∈ g.relations.filterMap
        (fun p => if cond p.2 then alookup (key p.2) g.entities else none)) ↔
      ∃ p ∈ g.relations, cond p.2 ∧ alookup (key p.2) g.entities = some b := by
  constructor
  · intro hb
    obtain ⟨p, hp, hpb⟩ := List.mem_filterMap.mp hb
    by_cases hc : cond p.2
    · rw [if_pos hc] at hpb
      exact ⟨p, hp, hc, hpb⟩
    · rw [if_neg hc] at hpb
      cases hpb
  · intro hb
    obtain ⟨p, hp, hc, hpb⟩ := hb
    exact List.mem_filterMap.mpr ⟨p, hp, by rw [if_pos hc]; exact hpb⟩

/-- The filtered neighbor relation, spelled out over the stored relations:
a neighbor is the resolved opposite endpoint of a relation passing the
predicate and touching the current entity — edges are undirected here. -/
theorem mem_neighborsFiltered_iff {g : Graph} (hwf : g.WF)
    (relPred : Relation → Bool) (a b : Entity) :
    b ∈ neighborsFiltered g relPred a ↔
      ∃ p ∈ g.relations, relPred p.2 = true ∧
        ((p.2.source = a.id ∧ alookup p.2.target g.entities = some b) ∨
         (p.2.target = a.id ∧ alookup p.2.source g.entities = some b)) := by
  unfold neighborsFiltered
  have hscan : ∀ x : Entity,
      x ∈ g.relations.filterMap
          (fun p => if p.2.source = a.id ∧ relPred p.2 then alookup p.2.target g.entities else none) ++
        g.relations.filterMap
          (fun p => if p.2.target = a.id ∧ relPred p.2 then alookup p.2.source g.entities else none) ↔
      ∃ p ∈ g.relations, relPred p.2 = true ∧
        ((p.2.source = a.id ∧ alookup p.2.target g.entities = some x) ∨
         (p.2.target = a.id ∧ alookup p.2.source g.entities = some x)) := by
    intro x
    rw [List.mem_append,
      mem_nbrScan_iff g (fun r => r.source = a.id ∧ relPred r = true) Relation.target,
      mem_nbrScan_iff g (fun r => r.target = a.id ∧ relPred r = true) Relation.source]
    constructor
    · intro h
      rcases h with ⟨p, hp, ⟨hcs, hcp⟩, hlook⟩ | ⟨p, hp, ⟨hct, hcp⟩, hlook⟩
      · exact ⟨p, hp, hcp, Or.inl ⟨hcs, hlook⟩⟩
      · exact ⟨p, hp, hcp, Or.inr ⟨hct, hlook⟩⟩
    · intro h
      rcases h with ⟨p, hp, hcp, ⟨hcs, hlook⟩ | ⟨hct, hlook⟩⟩
      · exact Or.inl ⟨p, hp, ⟨hcs, hcp⟩, hlook⟩
      · exact Or.inr ⟨p, hp, ⟨hct, hcp⟩, hlook⟩
  have huniq : ∀ x ∈ g.relations.filterMap
        (fun p => if p.2.source = a.id ∧ relPred p.2 then alookup p.2.target g.entities else none) ++
      g.relations.filterMap
        (fun p => if p.2.target = a.id ∧ relPred p.2 then alookup p.2.source g.entities else none),
      ∀ y ∈ g.relations.filterMap
        (fun p => if p.2.source = a.id ∧ relPred p.2 then alookup p.2.target g.entities else none) ++
      g.relations.filterMap
        (fun p => if p.2.target = a.id ∧ relPred p.2 then alookup p.2.source g.entities else none),
      x.id = y.id → x = y := by
    intro x hx y hy hxy
    obtain ⟨px, hpx, _, hlx⟩ := (hscan x).mp hx
    obtain ⟨py, hpy, _, hly⟩ := (hscan y).mp hy
    have hxlook : alookup x.id g.entities = some x := by
      rcases hlx with ⟨_, hl⟩ | ⟨_, hl⟩ <;>
        (have hkey := wf_entity_id hwf hl; rw [← hkey] at hl; exact hl)
    have hylook : alookup y.id g.entities = some y := by
      rcases hly with ⟨_, hl⟩ | ⟨_, hl⟩ <;>
        (have hkey := wf_entity_id hwf hl; rw [← hkey] at hl; exact hl)
    rw [hxy] at hxlook
    rw [hxlook] at hylook
    exact Option.some.inj hylook
  rw [mem_dedupById_iff _ huniq b]
  exact hscan b

/-- A filtered neighbor is the stored entity of its own id. -/
theorem neighborsFiltered_lookup {g : Graph} (hwf : g.WF)
    {relPred : Relation → Bool} {a n : Entity}
    (h : n ∈ neighborsFiltered g relPred a) :
    alookup n.id g.entities = some n := by
  obtain ⟨p, hp, _, hl⟩ := (mem_neighborsFiltered_iff hwf relPred a n).mp h
  rcases hl with ⟨_, hl⟩ | ⟨_, hl⟩ <;>
    (have hkey := wf_entity_id hwf hl; rw [← hkey] at hl; exact hl)

/-- Distinct-id visited lists identify entries by id. -/
theorem nodup_ids_unique {V : List (Entity × Nat)}
    (h : (V.map (fun p => p.1.id)).Nodup) :
    ∀ p ∈ V, ∀ q ∈ V, p.1.id = q.1.id → p = q := by
  induction V with
  | nil => intro p hp; cases hp
  | cons a rest ih =>
    intro p hp q hq hpq
    have h' := h
    rw [List.map_cons, List.nodup_cons] at h'
    have hca := h'
    rcases List.mem_cons.mp hp with hp1 | hp1 <;> rcases List.mem_cons.mp hq with hq1 | hq1
    · rw [hp1, hq1]
    · exact absurd (List.mem_map.mpr ⟨q, hq1, by rw [← hpq, hp1]⟩) hca.1
    · exact absurd (List.mem_map.mpr ⟨p, hp1, by rw [hpq, hq1]⟩) hca.1
    · exact ih hca.2 p hp1 q hq1 hpq

/-- A duplicate-free list is no longer than any list containing it. -/
theorem nodup_length_le {l₁ l₂ : List String} (h₁ : l₁.Nodup) (hsub : l₁ ⊆ l₂) :
    l₁.length ≤ l₂.length := by
  calc l₁.length = l₁.toFinset.card := (List.toFinset_card_of_nodup h₁).symm
    _ ≤ l₂.toFinset.card := Finset.card_le_card (fun x hx => by
        rw [List.mem_toFinset] at hx ⊢
        exact hsub hx)
    _ ≤ l₂.length := l₂.toFinset_card_le

/-- Characterization of the BFS neighbor scan: it appends the same block of
newly discovered entries — each at the next depth, passing the predicate,
and drawn from the neighbor list — to both the queue and the visited list;
every accepted neighbor ends up visited (now or before); distinct visited
ids are preserved. -/
theorem bfsExpand_spec (g : Graph) (nodePred : Entity → Bool) (nd : Nat) :
    ∀ (ns : List Entity) (q v : List (Entity × Nat)),
    (∀ p ∈ v, alookup p.1.id g.entities = some p.1) →
    (∀ n ∈ ns, alookup n.id g.entities = some n) →
    ∃ L, bfsExpand (fun e _ => nodePred e) nd ns q v = (q ++ L, v ++ L) ∧
      (∀ x ∈ L, x.2 = nd ∧ nodePred x.1 = true ∧ x.1 ∈ ns) ∧
      (∀ n ∈ ns, nodePred n = true →
        (∃ dn, (n, dn) ∈ v) ∨ (n, nd) ∈ v ++ L) ∧
      ((v.map (fun p => p.1.id)).Nodup → ((v ++ L).map (fun p => p.1.id)).Nodup) := by
  intro ns
  induction ns with
  | nil =>
    intro q v hv hns
    exact ⟨[], by simp [bfsExpand], by simp, by simp, by simp⟩
  | cons n rest ih =>
    intro q v hv hns
    by_cases hvis : v.any (fun p => p.1.id = n.id)
    · obtain ⟨L, heq, hprops, hcover, hnd⟩ :=
        ih q v hv (fun m hm => hns m (List.mem_cons_of_mem _ hm))
      refine ⟨L, ?_, fun x hx =>
        ⟨(hprops x hx).1, (hprops x hx).2.1, List.mem_cons_of_mem _ (hprops x hx).2.2⟩,
        ?_, hnd⟩
      · simp only [bfsExpand, if_pos hvis]
        exact heq
      · intro m hm hpm
        rcases List.mem_cons.mp hm with hm | hm
        · subst hm
          obtain ⟨p, hp, hpid⟩ := List.any_eq_true.mp hvis
          have hpid' : p.1.id = m.id := of_decide_eq_true hpid
          have hpm' : p.1 = m := by
            have h₁ := hv p hp
            have h₂ := hns m (List.mem_cons_self _ _)
            rw [hpid'] at h₁
            rw [h₁] at h₂
            exact Option.some.inj h₂
          exact Or.inl ⟨p.2, by rw [← hpm']; exact hp⟩
        · exact hcover m hm hpm
    · by_cases hpred : nodePred n
      · obtain ⟨L, heq, hprops, hcover, hnd⟩ :=
          ih (q ++ [(n, nd)]) (v ++ [(n, nd)])
            (by
              intro p hp
              rcases List.mem_append.mp hp with hp | hp
              · exact hv p hp
              · rw [List.mem_singleton.mp hp]
                exact hns n (List.mem_cons_self _ _))
            (fun m hm => hns m (List.mem_cons_of_mem _ hm))
        refine ⟨(n, nd) :: L, ?_, ?_, ?_, ?_⟩
        · simp only [bfsExpand, if_neg hvis, hpred, if_pos]
          rw [heq]
          simp
        · intro x hx
          rcases List.mem_cons.mp hx with hx | hx
          · rw [hx]
            exact ⟨rfl, hpred, List.mem_cons_self _ _⟩
          · obtain ⟨h₁, h₂, h₃⟩ := hprops x hx
            exact ⟨h₁, h₂, List.mem_cons_of_mem _ h₃⟩
        · intro m hm hpm
          rcases List.mem_cons.mp hm with hm | hm
          · subst hm
            refine Or.inr ?_
            simp
          · rcases hcover m hm hpm with ⟨dn, hdn⟩ | hdn
            · rcases List.mem_append.mp hdn with hdn | hdn
              · exact Or.inl ⟨dn, hdn⟩
              · have : (m, dn) = (n, nd) := List.mem_singleton.mp hdn
                injection this with h₁ h₂
                subst h₁
                refine Or.inr ?_
                simp [h₂]
            · refine Or.inr ?_
              rcases List.mem_append.mp hdn with hdn | hdn
              · rcases List.mem_append.mp hdn with hdn | hdn
                · exact List.mem_append_left _ hdn
                · refine List.mem_append_right _ ?_
                  rw [List.mem_singleton.mp hdn]
                  exact List.mem_cons_self _ _
              · exact List.mem_append_right _ (List.mem_cons_of_mem _ hdn)
        · intro hvnd
          have hnotin : n.id ∉ v.map (fun p => p.1.id) := by
            intro hcontra
            obtain ⟨p, hp, hpid⟩ := List.mem_map.mp hcontra
            exact hvis (List.any_eq_true.mpr ⟨p, hp, decide_eq_true hpid⟩)
          have hmid : ((v ++ [(n, nd)]).map (fun p => p.1.id)).Nodup := by
            simp only [List.map_append, List.map_cons, List.map_nil]
            rw [List.nodup_append]
            exact ⟨hvnd, List.nodup_singleton _, by
              intro x hx
              simp only [List.mem_singleton]
              intro hxe
              rw [hxe] at hx
              exact hnotin hx⟩
          have := hnd hmid
          simpa using this
      · obtain ⟨L, heq, hprops, hcover, hnd⟩ :=
          ih q v hv (fun m hm => hns m (List.mem_cons_of_mem _ hm))
        refine ⟨L, ?_, fun x hx =>
          ⟨(hprops x hx).1, (hprops x hx).2.1, List.mem_cons_of_mem _ (hprops x hx).2.2⟩,
          ?_, hnd⟩
        · simp only [bfsExpand, if_neg hvis]
          rw [if_neg (by simpa using hpred)]
          exact heq
        · intro m hm hpm
          rcases List.mem_cons.mp hm with hm | hm
          · subst hm
            exact absurd hpm (by simpa using hpred)
          · exact hcover m hm hpm

/-- One expanding BFS step preserves the worklist invariant: popping the
front `(cur, d)` of the queue and appending the block `L` of newly accepted
neighbors of `cur` at depth `d + 1` (as characterized by `bfsExpand_spec`)
to both queue and visited keeps every field of `BfsInv`. -/
theorem bfsInv_step {g : Graph} (hwf : g.WF) {startIDs : List String}
    {nodePred : Entity → Bool} {relPred : Relation → Bool} {md : Int}
    {cur : Entity} {d : Nat} {rest V L : List (Entity × Nat)}
    (hinv : BfsInv g startIDs nodePred relPred md ((cur, d) :: rest) V)
    (hok : ExpandOK md d)
    (hLp : ∀ x ∈ L, x.2 = d + 1 ∧ nodePred x.1 = true ∧
      x.1 ∈ neighborsFiltered g relPred cur)
    (hcover : ∀ n ∈ neighborsFiltered g relPred cur, nodePred n = true →
      (∃ dn, (n, dn) ∈ V) ∨ (n, d + 1) ∈ V ++ L)
    (hvnd : ((V ++ L).map (fun p => p.1.id)).Nodup) :
    BfsInv g startIDs nodePred relPred md (rest ++ L) (V ++ L) := by
  have hcurV : (cur, d) ∈ V := hinv.qsubv _ (List.mem_cons_self _ _)
  have hcurP := hinv.vprops _ hcurV
  have hqc := List.pairwise_cons.mp hinv.qlevels
  have hhead : ∀ r ∈ rest, d ≤ r.2 ∧ r.2 ≤ d + 1 := hqc.1
  have htail := hqc.2
  refine ⟨?_, hvnd, ?_, ?_, ?_, ?_, ?_⟩
  · intro p hp
    rcases List.mem_append.mp hp with hp | hp
    · exact hinv.vprops p hp
    · obtain ⟨h2, hpred, hnb⟩ := hLp p hp
      refine ⟨hpred, ?_, ?_, neighborsFiltered_lookup hwf hnb⟩
      · rw [h2]
        exact ReachN.step hcurP.2.1 hnb hpred
      · intro hmd
        rw [h2]
        rcases hok with hneg | hle <;> omega
  · intro p hp
    rcases List.mem_append.mp hp with hp | hp
    · exact List.mem_append_left _ (hinv.qsubv p (List.mem_cons_of_mem _ hp))
    · exact List.mem_append_right _ hp
  · rw [List.map_append, List.nodup_append]
    have hvn := hvnd
    rw [List.map_append, List.nodup_append] at hvn
    refine ⟨?_, hvn.2.1, ?_⟩
    · have := hinv.qnodup
      simp only [List.map_cons, List.nodup_cons] at this
      exact this.2
    · intro x hx hxL
      obtain ⟨r, hr, hrid⟩ := List.mem_map.mp hx
      exact hvn.2.2 (List.mem_map.mpr
        ⟨r, hinv.qsubv r (List.mem_cons_of_mem _ hr), hrid⟩) hxL
  · rw [List.pairwise_append]
    refine ⟨htail, List.pairwise_of_forall_mem_list ?_, ?_⟩
    · intro a ha b hb
      rw [(hLp a ha).1, (hLp b hb).1]
      omega
    · intro a ha b hb
      have h1 := hhead a ha
      have h2 := (hLp b hb).1
      omega
  · intro p hp q hq
    rcases List.mem_append.mp hp with hp | hp <;>
      rcases List.mem_append.mp hq with hq | hq
    · exact hinv.vqbound p hp q (List.mem_cons_of_mem _ hq)
    · have h1 := hinv.vqbound p hp (cur, d) (List.mem_cons_self _ _)
      have h2 := (hLp q hq).1
      omega
    · have h1 := (hLp p hp).1
      have h2 := hhead q hq
      omega
    · have h1 := (hLp p hp).1
      have h2 := (hLp q hq).1
      omega
  · intro p hp htrig hokp n hn hnp
    rcases List.mem_append.mp hp with hp | hp
    · by_cases hid : p.1.id = cur.id
      · have hpeq : p = (cur, d) :=
          nodup_ids_unique hinv.vnodup p hp (cur, d) hcurV hid
        rcases hcover n (by rw [hpeq] at hn; exact hn) hnp with ⟨dn, hdn⟩ | hdn
        · refine ⟨dn, List.mem_append_left _ hdn, ?_⟩
          have := hinv.vqbound (n, dn) hdn (cur, d) (List.mem_cons_self _ _)
          rw [hpeq]
          exact this
        · exact ⟨d + 1, hdn, by rw [hpeq]⟩
      · have htrig' : ¬ ∃ q ∈ (cur, d) :: rest, q.1.id = p.1.id := by
          rintro ⟨q, hq, hqid⟩
          rcases List.mem_cons.mp hq with hq | hq
          · rw [hq] at hqid
            exact hid hqid.symm
          · exact htrig ⟨q, List.mem_append_left _ hq, hqid⟩
        obtain ⟨dn, hdn, hle⟩ := hinv.processed p hp htrig' hokp n hn hnp
        exact ⟨dn, List.mem_append_left _ hdn, hle⟩
    · exact absurd ⟨p, List.mem_append_right _ hp, rfl⟩ htrig

/-- A visited list whose entries are lookup results with distinct ids is no
longer than the entity store. -/
theorem visited_length_le {g : Graph} {V : List (Entity × Nat)}
    (hnd : (V.map (fun p => p.1.id)).Nodup)
    (hlook : ∀ p ∈ V, alookup p.1.id g.entities = some p.1) :
    V.length ≤ g.entities.length := by
  have hsub : (V.map (fun p => p.1.id)) ⊆ g.entities.map Prod.fst := by
    intro x hx
    obtain ⟨p, hp, hpx⟩ := List.mem_map.mp hx
    exact List.mem_map.mpr ⟨(p.1.id, p.1), alookup_mem (hlook p hp), hpx⟩
  have := nodup_length_le hnd hsub
  simpa using this

/-- Running the BFS queue loop from any invariant-satisfying state with
enough fuel drains the queue: the result satisfies the invariant with an
empty queue and extends the visited list it started from. -/
theorem bfsLoop_final {g : Graph} (hwf : g.WF) {startIDs : List String}
    {nodePred : Entity → Bool} {relPred : Relation → Bool} {md : Int} :
    ∀ (fuel : Nat) (Q V : List (Entity × Nat)),
    BfsInv g startIDs nodePred relPred md Q V →
    g.entities.length + Q.length < fuel + V.length →
    BfsInv g startIDs nodePred relPred md []
      (bfsLoop g relPred (fun e _ => nodePred e) md fuel Q V) ∧
    ∀ p ∈ V, p ∈ bfsLoop g relPred (fun e _ => nodePred e) md fuel Q V := by
  intro fuel
  induction fuel with
  | zero =>
    intro Q V hinv hmeas
    match Q with
    | [] => exact ⟨hinv, fun p hp => hp⟩
    | (cur, d) :: rest =>
      exfalso
      have hle : V.length ≤ g.entities.length :=
        visited_length_le hinv.vnodup (fun p hp => (hinv.vprops p hp).2.2.2)
      simp only [List.length_cons] at hmeas
      omega
  | succ fuel ih =>
    intro Q V hinv hmeas
    match Q with
    | [] => exact ⟨hinv, fun p hp => hp⟩
    | (cur, d) :: rest =>
      by_cases hskip : md ≥ 0 ∧ (d + 1 : Int) > md
      · have hinv' : BfsInv g startIDs nodePred relPred md rest V := by
          refine ⟨hinv.vprops, hinv.vnodup, ?_, ?_, ?_, ?_, ?_⟩
          · exact fun p hp => hinv.qsubv p (List.mem_cons_of_mem _ hp)
          · have := hinv.qnodup
            simp only [List.map_cons, List.nodup_cons] at this
            exact this.2
          · exact (List.pairwise_cons.mp hinv.qlevels).2
          · exact fun p hp q hq => hinv.vqbound p hp q (List.mem_cons_of_mem _ hq)
          · intro p hp htrig hokp n hn hnp
            by_cases hid : p.1.id = cur.id
            · exfalso
              have hcurV : (cur, d) ∈ V := hinv.qsubv _ (List.mem_cons_self _ _)
              have hpeq : p = (cur, d) :=
                nodup_ids_unique hinv.vnodup p hp (cur, d) hcurV hid
              rw [hpeq] at hokp
              have h' : md < 0 ∨ ((d : Int) + 1 ≤ md) := hokp
              omega
            · have htrig' : ¬ ∃ q ∈ (cur, d) :: rest, q.1.id = p.1.id := by
                rintro ⟨q, hq, hqid⟩
                rcases List.mem_cons.mp hq with hq | hq
                · rw [hq] at hqid
                  exact hid hqid.symm
                · exact htrig ⟨q, hq, hqid⟩
              exact hinv.processed p hp htrig' hokp n hn hnp
        have hrec := ih rest V hinv' (by
          simp only [List.length_cons] at hmeas
          omega)
        refine ⟨?_, ?_⟩ <;> simp only [bfsLoop, if_pos hskip]
        · exact hrec.1
        · exact hrec.2
      · have hok : ExpandOK md d := by
          unfold ExpandOK
          rw [not_and_or] at hskip
          omega
        obtain ⟨L, heq, hLp, hcover, hnd⟩ :=
          bfsExpand_spec g nodePred (d + 1) (neighborsFiltered g relPred cur)
            rest V (fun p hp => (hinv.vprops p hp).2.2.2)
            (fun n hn => neighborsFiltered_lookup hwf hn)
        have hinv' := bfsInv_step hwf hinv hok hLp hcover (hnd hinv.vnodup)
        have hrec := ih (rest ++ L) (V ++ L) hinv' (by
          simp only [List.length_cons, List.length_append] at hmeas ⊢
          omega)
        refine ⟨?_, ?_⟩ <;> simp only [bfsLoop, if_neg hskip, heq]
        · exact hrec.1
        · exact fun p hp => hrec.2 p (List.mem_append_left _ hp)

/-- The BFS start-node loop, when every start id names an entity: it
succeeds, returns an equal queue and visited list, preserves the invariant
and the all-depth-zero property, keeps everything already seeded, and seeds
every accepted start entity at depth 0. -/
theorem bfsInit_ok {g : Graph} (hwf : g.WF) {startIDs : List String}
    {nodePred : Entity → Bool} {relPred : Relation → Bool} {md : Int} :
    ∀ (sids : List String) (w : List (Entity × Nat)),
    (∀ sid ∈ sids, sid ∈ startIDs) →
    BfsInv g startIDs nodePred relPred md w w →
    (∀ p ∈ w, p.2 = 0) →
    (∀ sid ∈ sids, alookup sid g.entities ≠ none) →
    ∃ w', bfsInit g (fun e _ => nodePred e) sids w w = .ok (w', w') ∧
      BfsInv g startIDs nodePred relPred md w' w' ∧
      (∀ p ∈ w', p.2 = 0) ∧ (∀ p ∈ w, p ∈ w') ∧
      (∀ sid ∈ sids, ∀ e, alookup sid g.entities = some e → nodePred e = true →
        (e, 0) ∈ w') := by
  intro sids
  induction sids with
  | nil =>
    intro w _ hinv hzero _
    exact ⟨w, rfl, hinv, hzero, fun p hp => hp, fun sid hsid => absurd hsid
      (List.not_mem_nil sid)⟩
  | cons sid rest ih =>
    intro w hsub hinv hzero hsome
    by_cases hvis : w.any (fun p => p.1.id = sid)
    · obtain ⟨w', heq, hinv', hzero', hmono, hseed⟩ :=
        ih w (fun s hs => hsub s (List.mem_cons_of_mem _ hs)) hinv hzero
          (fun s hs => hsome s (List.mem_cons_of_mem _ hs))
      refine ⟨w', ?_, hinv', hzero', hmono, ?_⟩
      · simp only [bfsInit, if_pos hvis]
        exact heq
      · intro s hs e hlook hpred
        rcases List.mem_cons.mp hs with hs | hs
        · obtain ⟨p, hp, hpid⟩ := List.any_eq_true.mp hvis
          have hpid' : p.1.id = s := by rw [hs]; exact of_decide_eq_true hpid
          have hpl := (hinv.vprops p hp).2.2.2
          rw [hpid', hlook] at hpl
          have hpe : p.1 = e := (Option.some.inj hpl).symm
          have h2 : p.2 = 0 := hzero p hp
          rw [← hpe, ← h2]
          exact hmono p hp
        · exact hseed s hs e hlook hpred
    · match hlook : alookup sid g.entities with
      | none => exact absurd hlook (hsome sid (List.mem_cons_self _ _))
      | some e =>
        have hsid : sid ∈ startIDs := hsub sid (List.mem_cons_self _ _)
        have heid : e.id = sid := wf_entity_id hwf hlook
        by_cases hpred : nodePred e
        · have hnotin : e.id ∉ w.map (fun p => p.1.id) := by
            intro hcontra
            obtain ⟨p, hp, hpid⟩ := List.mem_map.mp hcontra
            exact hvis (List.any_eq_true.mpr ⟨p, hp, decide_eq_true (by
              rw [hpid, heid])⟩)
          have hinv₁ : BfsInv g startIDs nodePred relPred md
              (w ++ [(e, 0)]) (w ++ [(e, 0)]) := by
            have hnd : (((w ++ [(e, 0)] : List (Entity × Nat))).map
                (fun p => p.1.id)).Nodup := by
              simp only [List.map_append, List.map_cons, List.map_nil]
              rw [List.nodup_append]
              exact ⟨hinv.vnodup, List.nodup_singleton _, by
                intro x hx
                simp only [List.mem_singleton]
                intro hxe
                rw [hxe] at hx
                exact hnotin hx⟩
            refine ⟨?_, hnd, fun p hp => hp, hnd, ?_, ?_, ?_⟩
            · intro p hp
              rcases List.mem_append.mp hp with hp | hp
              · exact hinv.vprops p hp
              · rw [List.mem_singleton.mp hp]
                refine ⟨hpred, ReachN.source sid hsid hlook hpred, ?_, ?_⟩
                · intro hmd
                  simp only [Nat.cast_zero]
                  omega
                · rw [heid]
                  exact hlook
            · refine List.pairwise_of_forall_mem_list ?_
              intro a ha b hb
              have hza : a.2 = 0 := by
                rcases List.mem_append.mp ha with h | h
                · exact hzero a h
                · rw [List.mem_singleton.mp h]
              have hzb : b.2 = 0 := by
                rcases List.mem_append.mp hb with h | h
                · exact hzero b h
                · rw [List.mem_singleton.mp h]
              omega
            · intro p hp q hq
              have hzp : p.2 = 0 := by
                rcases List.mem_append.mp hp with h | h
                · exact hzero p h
                · rw [List.mem_singleton.mp h]
              omega
            · intro p hp htrig
              exact absurd ⟨p, hp, rfl⟩ htrig
          obtain ⟨w', heq, hinv', hzero', hmono, hseed⟩ :=
            ih (w ++ [(e, 0)]) (fun s hs => hsub s (List.mem_cons_of_mem _ hs))
              hinv₁
              (by
                intro p hp
                rcases List.mem_append.mp hp with h | h
                · exact hzero p h
                · rw [List.mem_singleton.mp h])
              (fun s hs => hsome s (List.mem_cons_of_mem _ hs))
          refine ⟨w', ?_, hinv', hzero',
            fun p hp => hmono p (List.mem_append_left _ hp), ?_⟩
          · simp only [bfsInit, if_neg hvis, hlook, hpred, if_pos]
            exact heq
          · intro s hs e₁ hlook₁ hpred₁
            rcases List.mem_cons.mp hs with hs | hs
            · rw [hs] at hlook₁
              rw [hlook] at hlook₁
              have : e = e₁ := Option.some.inj hlook₁
              rw [← this]
              exact hmono (e, 0) (List.mem_append_right _ (List.mem_singleton.mpr rfl))
            · exact hseed s hs e₁ hlook₁ hpred₁
        · obtain ⟨w', heq, hinv', hzero', hmono, hseed⟩ :=
            ih w (fun s hs => hsub s (List.mem_cons_of_mem _ hs)) hinv hzero
              (fun s hs => hsome s (List.mem_cons_of_mem _ hs))
          refine ⟨w', ?_, hinv', hzero', hmono, ?_⟩
          · simp only [bfsInit, if_neg hvis, hlook]
            rw [if_neg (by simpa using hpred)]
            exact heq
          · intro s hs e₁ hlook₁ hpred₁
            rcases List.mem_cons.mp hs with hs | hs
            · rw [hs] at hlook₁
              rw [hlook] at hlook₁
              rw [← Option.some.inj hlook₁] at hpred₁
              exact absurd hpred₁ (by simpa using hpred)
            · exact hseed s hs e₁ hlook₁ hpred₁

/-- The BFS start-node loop errors when some start id names no entity,
provided every already-seeded entry is a stored entity. -/
theorem bfsInit_err {g : Graph} (hwf : g.WF)
    {nodePred : Entity → Bool} :
    ∀ (sids : List String) (w : List (Entity × Nat)),
    (∀ p ∈ w, alookup p.1.id g.entities = some p.1) →
    (∃ sid ∈ sids, alookup sid g.entities = none) →
    ∃ sid, bfsInit g (fun e _ => nodePred e) sids w w = .error (.notFound sid) := by
  intro sids
  induction sids with
  | nil =>
    intro w _ hmiss
    obtain ⟨sid, hsid, _⟩ := hmiss
    exact absurd hsid (List.not_mem_nil sid)
  | cons sid rest ih =>
    intro w hwl hmiss
    by_cases hvis : w.any (fun p => p.1.id = sid)
    · have hrest : ∃ s ∈ rest, alookup s g.entities = none := by
        obtain ⟨s, hs, hsnone⟩ := hmiss
        rcases List.mem_cons.mp hs with hs | hs
        · exfalso
          obtain ⟨p, hp, hpid⟩ := List.any_eq_true.mp hvis
          have hpid' : p.1.id = s := by rw [hs]; exact of_decide_eq_true hpid
          have := hwl p hp
          rw [hpid', hsnone] at this
          exact Option.noConfusion this
        · exact ⟨s, hs, hsnone⟩
      obtain ⟨s, heq⟩ := ih w hwl hrest
      refine ⟨s, ?_⟩
      simp only [bfsInit, if_pos hvis]
      exact heq
    · match hlook : alookup sid g.entities with
      | none =>
        refine ⟨sid, ?_⟩
        simp only [bfsInit, if_neg hvis, hlook]
      | some e =>
        have hrest : ∃ s ∈ rest, alookup s g.entities = none := by
          obtain ⟨s, hs, hsnone⟩ := hmiss
          rcases List.mem_cons.mp hs with hs | hs
          · rw [hs, hlook] at hsnone
            exact Option.noConfusion hsnone
          · exact ⟨s, hs, hsnone⟩
        have heid : e.id = sid := wf_entity_id hwf hlook
        by_cases hpred : nodePred e
        · obtain ⟨s, heq⟩ := ih (w ++ [(e, 0)])
            (by
              intro p hp
              rcases List.mem_append.mp hp with hp | hp
              · exact hwl p hp
              · rw [List.mem_singleton.mp hp]
                simp only
                rw [heid]
                exact hlook)
            hrest
          refine ⟨s, ?_⟩
          simp only [bfsInit, if_neg hvis, hlook, hpred, if_pos]
          exact heq
        · obtain ⟨s, heq⟩ := ih w hwl hrest
          refine ⟨s, ?_⟩
          simp only [bfsInit, if_neg hvis, hlook]
          rw [if_neg (by simpa using hpred)]
          exact heq

/-- From a drained BFS state, every entity reachable in `m` allowed steps is
visited at depth at most `m`: each expansion along the chain was permitted
because the whole chain stays under the depth limit. -/
theorem bfs_minimal {g : Graph} {startIDs : List String}
    {nodePred : Entity → Bool} {relPred : Relation → Bool} {md : Int}
    {W : List (Entity × Nat)}
    (hfin : BfsInv g startIDs nodePred relPred md [] W)
    (hseed : ∀ sid ∈ startIDs, ∀ e, alookup sid g.entities = some e →
      nodePred e = true → (e, 0) ∈ W) :
    ∀ m e, ReachN g startIDs nodePred relPred m e →
      (md < 0 ∨ (m : Int) ≤ md) →
      ∃ d, (e, d) ∈ W ∧ d ≤ m := by
  intro m e hreach
  induction hreach with
  | source sid hsid hlook hpred =>
    intro _
    exact ⟨0, hseed sid hsid _ hlook hpred, Nat.le_refl 0⟩
  | @step n a b ha hnb hpredb ih =>
    intro hbound
    obtain ⟨da, haW, hda⟩ := ih (by
      rcases hbound with h | h
      · exact Or.inl h
      · refine Or.inr ?_
        push_cast at h
        omega)
    have hexp : ExpandOK md da := by
      show md < 0 ∨ ((da : Int) + 1 ≤ md)
      rcases hbound with h | h
      · exact Or.inl h
      · refine Or.inr ?_
        push_cast at h
        have hdc : (da : Int) ≤ (n : Int) := by exact_mod_cast hda
        omega
    obtain ⟨db, hbW, hdb⟩ := hfin.processed (a, da) haW
      (by rintro ⟨q, hq, _⟩; exact absurd hq (List.not_mem_nil q)) hexp b hnb hpredb
    exact ⟨db, hbW, by omega⟩

/-- The invariant holds vacuously of the empty initial BFS state. -/
theorem bfsInv_nil (g : Graph) (startIDs : List String) (nodePred : Entity → Bool)
    (relPred : Relation → Bool) (md : Int) :
    BfsInv g startIDs nodePred relPred md [] [] :=
  ⟨fun p hp => absurd hp (List.not_mem_nil p), List.nodup_nil,
   fun p hp => absurd hp (List.not_mem_nil p), List.nodup_nil,
   List.Pairwise.nil,
   fun p hp => absurd hp (List.not_mem_nil p),
   fun p hp => absurd hp (List.not_mem_nil p)⟩

/-- C3: over any well-formed graph, BFS from start set `S` with depth limit
`d` errors exactly when some start id names no stored entity; otherwise
every visited entry passes the node filter, its recorded depth `δ`
satisfies `0 ≤ δ`, and `δ ≤ d` whenever `d ≥ 0`, the entry is reachable
from the start set in exactly `δ` steps of the filtered undirected
neighbor relation, and no smaller number of such steps reaches it — the
recorded depth is the shortest filtered relation-sequence length. -/
theorem c3_bfs_shortest (g : Graph) (hwf : g.WF) (startIDs : List String)
    (md : Int) (nodePred : Entity → Bool) (relPred : Relation → Bool) :
    ((∃ err, bfs g startIDs md (fun e _ => nodePred e) relPred = .error err) ↔
      ∃ sid ∈ startIDs, alookup sid g.entities = none) ∧
    ∀ W, bfs g startIDs md (fun e _ => nodePred e) relPred = .ok W →
      ∀ p ∈ W, nodePred p.1 = true ∧
        ((0 : Int) ≤ (p.2 : Int) ∧ (0 ≤ md → (p.2 : Int) ≤ md)) ∧
        ReachN g startIDs nodePred relPred p.2 p.1 ∧
        (∀ m, ReachN g startIDs nodePred relPred m p.1 → p.2 ≤ m) := by
  constructor
  · constructor
    · rintro ⟨err, herr⟩
      by_contra hmiss
      push_neg at hmiss
      obtain ⟨w₀, hinit, _, _, _, _⟩ :=
        bfsInit_ok hwf startIDs [] (fun s hs => hs)
          (bfsInv_nil g startIDs nodePred relPred md)
          (fun p hp => absurd hp (List.not_mem_nil p)) hmiss
      simp only [bfs, hinit] at herr
      exact Except.noConfusion herr
    · intro hmiss
      obtain ⟨sid, heq⟩ :=
        @bfsInit_err g hwf nodePred startIDs []
          (fun p hp => absurd hp (List.not_mem_nil p)) hmiss
      exact ⟨.notFound sid, by simp only [bfs, heq]⟩
  · intro W hW
    have hmiss : ∀ sid ∈ startIDs, alookup sid g.entities ≠ none := by
      intro sid hsid hnone
      obtain ⟨sid', heq⟩ :=
        @bfsInit_err g hwf nodePred startIDs []
          (fun p hp => absurd hp (List.not_mem_nil p))
          ⟨sid, hsid, hnone⟩
      simp only [bfs, heq] at hW
      exact Except.noConfusion hW
    obtain ⟨w₀, hinit, hinv₀, hzero₀, _, hseed₀⟩ :=
      bfsInit_ok hwf startIDs [] (fun s hs => hs)
        (bfsInv_nil g startIDs nodePred relPred md)
        (fun p hp => absurd hp (List.not_mem_nil p)) hmiss
    simp only [bfs, hinit] at hW
    have hloop := bfsLoop_final hwf (bfsFuel g startIDs) w₀ w₀ hinv₀ (by
      simp only [bfsFuel]
      omega)
    have hWeq : bfsLoop g relPred (fun e _ => nodePred e) md
        (bfsFuel g startIDs) w₀ w₀ = W := by
      exact Except.ok.inj hW
    rw [hWeq] at hloop
    have hfin := hloop.1
    have hseedW : ∀ sid ∈ startIDs, ∀ e, alookup sid g.entities = some e →
        nodePred e = true → (e, 0) ∈ W :=
      fun sid hs e hl hp => hloop.2 (e, 0) (hseed₀ sid hs e hl hp)
    intro p hp
    have hv := hfin.vprops p hp
    refine ⟨hv.1, ⟨Int.natCast_nonneg p.2, hv.2.2.1⟩, hv.2.1, ?_⟩
    intro m hm
    by_cases hc : md < 0 ∨ (m : Int) ≤ md
    · obtain ⟨dm, hdmW, hdm⟩ := bfs_minimal hfin hseedW m p.1 hm hc
      have hpeq : p = (p.1, dm) :=
        nodup_ids_unique hfin.vnodup p hp (p.1, dm) hdmW rfl
      have hp2 : p.2 = dm := congrArg Prod.snd hpeq
      omega
    · push_neg at hc
      have h1 := hv.2.2.1 hc.1
      have h2 := hc.2
      omega

/-- Witness for C3: the BFS theorem applied to the example graph from start
`A` with depth limit 1, with the trivial node and relation filters. -/
theorem c3_bfs_shortest_witness :
    ((∃ err, bfs exGraph ["A"] 1 (fun e _ => (fun _ => true) e)
        (fun _ => true) = .error err) ↔
      ∃ sid ∈ ["A"], alookup sid exGraph.entities = none) ∧
    ∀ W, bfs exGraph ["A"] 1 (fun e _ => (fun _ => true) e)
        (fun _ => true) = .ok W →
      ∀ p ∈ W, (fun _ => true) p.1 = true ∧
        ((0 : Int) ≤ (p.2 : Int) ∧ (0 ≤ (1 : Int) → (p.2 : Int) ≤ 1)) ∧
        ReachN exGraph ["A"] (fun _ => true) (fun _ => true) p.2 p.1 ∧
        (∀ m, ReachN exGraph ["A"] (fun _ => true) (fun _ => true) m p.1 →
          p.2 ≤ m) :=
  c3_bfs_shortest exGraph (by decide) ["A"] 1 (fun _ => true) (fun _ => true)

end MemGraph
